import Mathlib

/-!
# Verification of the OSM XML parse/unparse core

Shallow embedding of `src/speedup/xml_parse.c` (primary parse path, whose
event loop agrees with `src/optimized/xml_parse.c`) and
`src/speedup/xml_unparse.c`.

The byte-level XML tokenizer (libxml2 `xmlTextReader`) is an external
collaborator: the machine is modelled on the event stream the tokenizer
delivers (element-open, attribute, text, element-close).  Self-closing
elements arrive as a synthesized element-close, CDATA is delivered as TEXT
(`XML_PARSE_NOCDATA`), and whitespace-only text nodes arrive as
`SIGNIFICANT_WHITESPACE`, which the C switch ignores — they produce no
event here.

Python objects are modelled by the inductive `Value`; Python `dict`s are
insertion-ordered association lists with unique keys and CPython's
`PyDict_SetItem` semantics (overwrite in place, insert at the end).
External callables (`strtod`, `datetime.fromisoformat`,
`app.lib.date_utils.parse_date`) and the Python `str()` of floats are
parameters (`Ext`, `UEnv`); the double returned by `strtod` is carried
opaquely as a `Rat`.
-/

namespace OsmXml

/-- `datetime.tzinfo` of a Python datetime as the unparser inspects it:
absent (naive datetime), `timezone.utc`, or some other timezone object. -/
inductive TZInfo where
  | tzNone
  | utc
  | other (descr : String)
deriving DecidableEq, Repr

/-- A Python `datetime.datetime` as accessed through the C date/time macros
(`PyDateTime_GET_YEAR`, ..., `PyDateTime_DATE_GET_MICROSECOND`,
`PyDateTime_DATE_GET_TZINFO`). -/
structure Timestamp where
  year : Nat
  month : Nat
  day : Nat
  hour : Nat
  minute : Nat
  second : Nat
  microsecond : Nat
  tz : TZInfo
deriving DecidableEq, Repr

/-- Python values as the parse/unparse modules traffic in them.
`map` is an insertion-ordered `dict` with string keys; `seq` a `list`;
`tup` a two-element `tuple` whose first slot is a string (the only tuple
shape the parser ever builds, via `PyTuple_Pack(2, name, result)`);
`cdata` the `CDATA` wrapper type defined in `xml_unparse.c`;
`float` carries the `strtod` result opaquely. -/
inductive Value where
  | null
  | str (s : String)
  | int (n : Int)
  | float (q : Rat)
  | bool (b : Bool)
  | ts (t : Timestamp)
  | cdata (s : String)
  | map (entries : List (String × Value))
  | seq (items : List Value)
  | tup (k : String) (v : Value)

/-- Tokenizer events, in the order `xmlTextReader` delivers them: an
element-open, then its attributes, then text/children, then the close
(synthesized immediately for self-closing elements). -/
inductive Event where
  | elementOpen (name : String)
  | attribute (name : String) (value : String)
  | text (value : String)
  | endElement
deriving DecidableEq, Repr

/-! ## CPython dict model -/

/-- `PyDict_GetItem` on an insertion-ordered dict. -/
def dictGet : List (String × Value) → String → Option Value
  | [], _ => none
  | p :: rest, k => if p.1 = k then some p.2 else dictGet rest k

/-- `PyDict_SetItem`: overwrite the first entry with the key in place
(keeping its position — dict keys are unique, so "first" is "the"),
otherwise append at the end. -/
def dictSet : List (String × Value) → String → Value → List (String × Value)
  | [], k, v => [(k, v)]
  | p :: rest, k, v => if p.1 = k then (k, v) :: rest else p :: dictSet rest k v

/-! ## The value coercer (`#pragma region Postprocessors`) -/

/-- `isspace` of the C locale, as `strtoll`/`strtod` skip it. -/
def isCSpace (c : Char) : Bool :=
  c = ' ' || c = '\t' || c = '\n' || c = '\x0b' || c = '\x0c' || c = '\r'

/-- Decimal value of a digit run, most significant first (the accumulation
`strtoll` performs). -/
def digitsVal (ds : List Char) : Nat :=
  ds.foldl (fun a c => a * 10 + (c.toNat - 48)) 0

/-- glibc `strtoll(s, nullptr, 10)` together with whether it set `errno`
(`ERANGE`): skip C whitespace, optional sign, then a run of decimal digits.
No digits yields `(0, false)` — glibc does not set `errno` for an empty
conversion — and an out-of-int64-range value clamps and reports `ERANGE`. -/
def strtoll10 (s : String) : Int × Bool :=
  let cs := s.toList.dropWhile isCSpace
  let signed : Bool × List Char :=
    match cs with
    | [] => (false, [])
    | c :: t =>
      if c = '-' then (true, t)
      else if c = '+' then (false, t)
      else (false, c :: t)
  let ds := signed.2.takeWhile Char.isDigit
  if ds.isEmpty then (0, false)
  else
    let v : Int := if signed.1 then -(digitsVal ds : Int) else (digitsVal ds : Int)
    if v < -(2 ^ 63) then (-(2 ^ 63), true)
    else if v > 2 ^ 63 - 1 then (2 ^ 63 - 1, true)
    else (v, false)

/-- The external conversions the coercer calls out to: `strtod` (the
resulting double kept opaque, `none` modelling an `errno` from the C
library) and the two date-parser callables bound at module load. -/
structure Ext where
  strtod : String → Option Rat
  fromisoformat : String → Option Timestamp
  parse_date : String → Option Timestamp

/-- `postprocess_xml_str`. -/
def postprocess_xml_str (raw : String) : Option Value :=
  some (.str raw)

/-- `postprocess_xml_int`: `strtoll` base 10, failing only when `errno`
was set (range error). -/
def postprocess_xml_int (raw : String) : Option Value :=
  let r := strtoll10 raw
  if r.2 then none else some (.int r.1)

/-- `postprocess_xml_float`: `strtod`, failing only when `errno` was set. -/
def postprocess_xml_float (ext : Ext) (raw : String) : Option Value :=
  (ext.strtod raw).map .float

/-- `postprocess_xml_bool`: exactly `"true"` or `"false"`. -/
def postprocess_xml_bool (raw : String) : Option Value :=
  if raw = "true" then some (.bool true)
  else if raw = "false" then some (.bool false)
  else none

/-- `postprocess_xml_version`: float when the raw text contains a dot,
else integer. -/
def postprocess_xml_version (ext : Ext) (raw : String) : Option Value :=
  if raw.contains '.' then postprocess_xml_float ext raw
  else postprocess_xml_int raw

/-- `postprocess_xml_date`: route to `parse_date` when the raw text
contains a space, else `datetime.fromisoformat`; a raised exception is
`none`. -/
def postprocess_xml_date (ext : Ext) (raw : String) : Option Value :=
  ((if raw.contains ' ' then ext.parse_date else ext.fromisoformat) raw).map .ts

/-- The named scalarizers of `value_postprocessor_map`. -/
inductive PKind where
  | pint
  | pfloat
  | pbool
  | pdate
  | pversion
deriving DecidableEq, Repr

/-- `value_postprocessor_map`, in its source (alphabetical) order. -/
def value_postprocessor_map : List (String × PKind) :=
  [("changes_count", .pint), ("changeset", .pint),
   ("closed_at", .pdate), ("comments_count", .pint),
   ("created_at", .pdate), ("date", .pdate),
   ("ele", .pfloat), ("id", .pint),
   ("lat", .pfloat), ("lon", .pfloat),
   ("max_lat", .pfloat), ("max_lon", .pfloat),
   ("min_lat", .pfloat), ("min_lon", .pfloat),
   ("num_changes", .pint), ("open", .pbool),
   ("pending", .pbool), ("ref", .pint),
   ("time", .pdate), ("timestamp", .pdate),
   ("uid", .pint), ("updated_at", .pdate),
   ("version", .pversion), ("visible", .pbool)]

/-- The `bsearch` over `value_postprocessor_map` (the table is sorted and
duplicate-free, so linear lookup agrees with binary search). -/
def postLookup (key : String) : Option PKind :=
  (value_postprocessor_map.find? (fun p => p.1 = key)).map (·.2)

/-- `postprocess_value`: table dispatch, defaulting to the raw string. -/
def postprocess_value (ext : Ext) (key : String) (raw : String) : Option Value :=
  match postLookup key with
  | some .pint => postprocess_xml_int raw
  | some .pfloat => postprocess_xml_float ext raw
  | some .pbool => postprocess_xml_bool raw
  | some .pdate => postprocess_xml_date ext raw
  | some .pversion => postprocess_xml_version ext raw
  | none => postprocess_xml_str raw

/-! ## Name-policy sets (`#pragma region Sets`) -/

/-- `force_items_set` (sorted for `bsearch`). -/
def force_items_set : List String :=
  ["bounds", "create", "delete", "modify", "node", "relation", "way"]

/-- `force_list_set` (sorted for `bsearch`). -/
def force_list_set : List String :=
  ["comment", "gpx_file", "member", "nd", "note", "preference", "tag",
   "trk", "trkpt", "trkseg"]

/-! ## The event dispatcher / merge engine -/

/-- The `current_dict` slot: `Py_None` or a dict. -/
inductive DSlot where
  | pyNone
  | dict (m : List (String × Value))

/-- The `current_list` slot: `Py_None` or a list. -/
inductive LSlot where
  | pyNone
  | list (l : List Value)

/-- One frame `(name, dict, list)` of the bounded stack. -/
structure Frame where
  name : String
  dict : DSlot
  list : LSlot

/-- Machine state: the current frame (`none` before the first element,
when `current_dict == nullptr`) and the saved parent frames, topmost
first. -/
structure PState where
  cur : Option Frame
  stack : List Frame

/-- `STACK_SIZE`. -/
def STACK_SIZE : Nat := 10

/-- Parse errors surfaced to the caller.  `nestingTooDeep` is the
`RecursionError` from `stack_push`; `badValue` the `ValueError`
identifying the postprocess key and raw bytes; `nullRootValue` marks the
root close with a NULL `current_result`, where the C code passes NULL to
`PyDict_SetItem` (a CPython API-contract violation — debug builds abort on
the assertion, release builds dereference NULL); `contract` marks event
sequences the tokenizer can never deliver (attribute/text/close before any
element), where the C code would hand NULL containers to dict functions;
`stackNotEmpty`/`emptyDocument` are the end-of-stream errors. -/
inductive PErr where
  | nestingTooDeep
  | badValue (key : String) (raw : String)
  | nullRootValue
  | contract
  | stackNotEmpty
  | emptyDocument
deriving DecidableEq, Repr

/-- The underlying entry list of a dict slot (a fresh empty dict when the
slot is `Py_None`). -/
def DSlot.entries : DSlot → List (String × Value)
  | .pyNone => []
  | .dict m => m

/-- The underlying item list of a list slot (a fresh empty list when the
slot is `Py_None`). -/
def LSlot.items : LSlot → List Value
  | .pyNone => []
  | .list l => l

/-- The `current_result` computed on element-close (xml_parse.c lines
306–334): nothing for an untouched element; for a dict alone, unwrap a
single `#text` entry to its bare value; a list alone is the result; with
both, the dict's `(key, value)` pairs are appended to the list's tail in
insertion order. -/
def closeResult : DSlot → LSlot → Option Value
  | .pyNone, .pyNone => none
  | .dict m, .pyNone =>
    match m with
    | [(k, v)] => if k = "#text" then some v else some (.map m)
    | _ => some (.map m)
  | .pyNone, .list l => some (.seq l)
  | .dict m, .list l => some (.seq (l ++ m.map (fun p => .tup p.1 p.2)))

/-- Merging a closed child (name `cname`, non-NULL result `r`) into the
popped parent slots (xml_parse.c lines 343–414): items mode for
`force_items` names, else append/upgrade/insert into the parent dict with
an optional `force_list` wrap. -/
def mergeChild (pdict : DSlot) (plist : LSlot) (cname : String) (r : Value) :
    DSlot × LSlot :=
  if force_items_set.contains cname then
    (pdict, .list (plist.items ++ [.tup cname r]))
  else
    match dictGet pdict.entries cname with
    | some (.seq l) => (.dict (dictSet pdict.entries cname (.seq (l ++ [r]))), plist)
    | some existing => (.dict (dictSet pdict.entries cname (.seq [existing, r])), plist)
    | none =>
      let r' := if force_list_set.contains cname then Value.seq [r] else r
      (.dict (dictSet pdict.entries cname r'), plist)

/-- One iteration of the event loop.  `Sum.inr` is the completed root
value (the `goto ok` path, which ignores any remaining stream). -/
def step (ext : Ext) (s : PState) : Event → Except PErr (PState ⊕ Value)
  | .elementOpen e =>
    match s.cur with
    | some f =>
      if s.stack.length ≥ STACK_SIZE then .error .nestingTooDeep
      else .ok (.inl ⟨some ⟨e, .pyNone, .pyNone⟩, f :: s.stack⟩)
    | none => .ok (.inl ⟨some ⟨e, .pyNone, .pyNone⟩, s.stack⟩)
  | .attribute a v =>
    match s.cur with
    | none => .error .contract
    | some f =>
      match postprocess_value ext a v with
      | none => .error (.badValue a v)
      | some val =>
        .ok (.inl ⟨some ⟨f.name, .dict (dictSet f.dict.entries ("@" ++ a) val),
          f.list⟩, s.stack⟩)
  | .text v =>
    match s.cur with
    | none => .error .contract
    | some f =>
      match postprocess_value ext f.name v with
      | none => .error (.badValue f.name v)
      | some val =>
        .ok (.inl ⟨some ⟨f.name, .dict (dictSet f.dict.entries "#text" val),
          f.list⟩, s.stack⟩)
  | .endElement =>
    match s.cur with
    | none => .error .contract
    | some f =>
      match s.stack with
      | p :: rest =>
        match closeResult f.dict f.list with
        | none => .ok (.inl ⟨some p, rest⟩)
        | some r =>
          let dl := mergeChild p.dict p.list f.name r
          .ok (.inl ⟨some ⟨p.name, dl.1, dl.2⟩, rest⟩)
      | [] =>
        match closeResult f.dict f.list with
        | none => .error .nullRootValue
        | some r => .ok (.inr (.map [(f.name, r)]))

/-- Run a segment of the event stream, returning the state it leaves the
machine in (or the finished root / first error). -/
def runSeg (ext : Ext) (s : PState) : List Event → Except PErr (PState ⊕ Value)
  | [] => .ok (.inl s)
  | e :: rest =>
    match step ext s e with
    | .error er => .error er
    | .ok (.inr v) => .ok (.inr v)
    | .ok (.inl s') => runSeg ext s' rest

/-- Outcome of a whole stream: the end-of-stream checks of the `ok:` label
(`Stack is not empty after parsing` when anything is in flight, else
`Document is empty`) apply when the stream runs out before the root
closes. -/
def runFrom (ext : Ext) (s : PState) (evs : List Event) : Except PErr Value :=
  match runSeg ext s evs with
  | .error er => .error er
  | .ok (.inr v) => .ok v
  | .ok (.inl s') =>
    if s'.stack.length ≠ 0 ∨ s'.cur.isSome then .error .stackNotEmpty
    else .error .emptyDocument

/-- `xml_parse` on the event stream of a document. -/
def xml_parse (ext : Ext) (evs : List Event) : Except PErr Value :=
  runFrom ext ⟨none, []⟩ evs

/-- A trivial instantiation of the external callables, for concrete
evaluations that never reach them. -/
def extTriv : Ext :=
  ⟨fun _ => none, fun _ => none, fun _ => none⟩

/-! ## The unparse emitter (`src/speedup/xml_unparse.c`)

The libxml2 document is modelled as a node tree; serializing it with
`xmlDocDumpFormatMemoryEnc(..., format = 0)` and re-reading it with the
same reader options yields, per element: the open event, its attributes in
order, its children in document order, and the close event.  Whitespace-only
text nodes come back as `SIGNIFICANT_WHITESPACE` (ignored by the parse
switch), so they produce no event.  CDATA sections are read back as plain
text (`XML_PARSE_NOCDATA`) merged with adjacent text, so the builder merges
text eagerly (as `xmlNodeAddContent` itself does for text-text adjacency). -/

/-- A node of the libxml2 document tree: an element with its attribute list
and children, or character data. -/
inductive XNode where
  | elem (name : String) (attrs : List (String × String)) (children : List XNode)
  | xtext (s : String)

/-- `xmlNodeAddContent` on an element's child list: empty content adds
nothing; otherwise the text merges into a trailing text node or is appended.
Also used for `xmlAddChild` of a CDATA block, which the reader hands back
as text merged with its neighbours. -/
def addContent (children : List XNode) (s : String) : List XNode :=
  if s = "" then children
  else
    match children.getLast? with
    | some (.xtext t) => children.dropLast ++ [.xtext (t ++ s)]
    | _ => children ++ [.xtext s]

/-- Unparse errors: the `PyErr_*` raises of `xml_unparse.c`. -/
inductive UErr where
  | badArgument
  | badRootCount
  | rootMultipleDicts
  | rootMultipleScalars
  | tupleBadSize
  | tupleKeyNotString
  | nonUTCTimestamp (tz : TZInfo)
deriving DecidableEq, Repr

/-- The Python `str()` renderings the emitter delegates to the runtime for:
floats (shortest-roundtrip repr of a double) and containers.  Everything
else `to_string` renders concretely. -/
structure UEnv where
  pyFloatStr : Rat → String
  pyContainerStr : Value → String

/-- Decimal digits of a natural number, least significant first, with
explicit fuel (any fuel above the digit count is enough; `pyNatStr`
supplies `n + 1`). -/
def natDigitsRevF : Nat → Nat → List Char
  | 0, _ => []
  | fuel + 1, n =>
    if n < 10 then [Char.ofNat (48 + n)]
    else Char.ofNat (48 + n % 10) :: natDigitsRevF fuel (n / 10)

/-- CPython `str()` of a non-negative int (decimal rendering). -/
def pyNatStr (n : Nat) : String :=
  ⟨(natDigitsRevF (n + 1) n).reverse⟩

/-- CPython `str()` of an int: decimal digits with a leading minus sign for
negative values. -/
def pyIntStr (n : Int) : String :=
  if n < 0 then "-" ++ pyNatStr n.natAbs else pyNatStr n.natAbs

/-- `PyUnicode_FromFormat`'s `%0Nd`: decimal, zero-padded to width `w`. -/
def padZeros (w : Nat) (n : Nat) : String :=
  ⟨List.replicate (w - (pyNatStr n).length) '0'⟩ ++ pyNatStr n

/-- The timestamp rendering of `to_string`:
`"%04d-%02d-%02dT%02d:%02d:%02d.%06dZ"` when the microsecond field is
non-zero, `"%04d-%02d-%02dT%02d:%02d:%02dZ"` otherwise. -/
def formatTimestamp (t : Timestamp) : String :=
  padZeros 4 t.year ++ "-" ++ padZeros 2 t.month ++ "-" ++ padZeros 2 t.day ++ "T" ++
    padZeros 2 t.hour ++ ":" ++ padZeros 2 t.minute ++ ":" ++ padZeros 2 t.second ++
    (if t.microsecond = 0 then "" else "." ++ padZeros 6 t.microsecond) ++ "Z"

/-- `to_string` (xml_unparse.c lines 67–101): booleans to `"true"`/`"false"`,
`None` to the empty string, strings as-is, datetimes to the ISO-8601 `Z`
format after rejecting timezones other than `Py_None` and UTC, and
`PyObject_Str` for everything else (ints render in decimal; `CDATA`'s
`tp_str` returns its wrapped text; floats and containers go to the
runtime). -/
def to_string (env : UEnv) : Value → Except UErr String
  | .bool true => .ok "true"
  | .bool false => .ok "false"
  | .null => .ok ""
  | .str s => .ok s
  | .ts t =>
    if t.tz = .tzNone ∨ t.tz = .utc then .ok (formatTimestamp t)
    else .error (.nonUTCTimestamp t.tz)
  | .int n => .ok (pyIntStr n)
  | .cdata s => .ok s
  | .float q => .ok (env.pyFloatStr q)
  | .map m => .ok (env.pyContainerStr (.map m))
  | .seq l => .ok (env.pyContainerStr (.seq l))
  | .tup k v => .ok (env.pyContainerStr (.tup k v))

/-- `key[0] == c` of the C code (both probed characters are ASCII, so the
first character of the UTF-8 representation is the first `Char`). -/
def firstCharIs (c : Char) (s : String) : Bool :=
  match s.toList with
  | [] => false
  | c0 :: _ => c0 = c

/-- `key + 1` of the C code: the string after its first (ASCII)
character. -/
def dropFirstChar (s : String) : String :=
  ⟨s.toList.drop 1⟩

@[simp] theorem except_ok_bind {α β ε : Type} (a : α) (f : α → Except ε β) :
    (Except.ok a : Except ε α) >>= f = f a := rfl

@[simp] theorem except_error_bind {α β ε : Type} (e : ε) (f : α → Except ε β) :
    (Except.error e : Except ε α) >>= f = .error e := rfl

@[simp] theorem except_map_ok {α β ε : Type} (a : α) (f : α → β) :
    (Except.ok a : Except ε α).map f = .ok (f a) := rfl

@[simp] theorem except_map_error {α β ε : Type} (e : ε) (f : α → β) :
    (Except.error e : Except ε α).map f = .error e := rfl

/-- An element under construction: its attribute list (`xmlNewProp`
appends) and child list. -/
structure EBuild where
  attrs : List (String × String)
  children : List XNode

/-- State of `unparse_element`'s sequence loop: the nodes appended to the
parent so far, and — once a tuple item has been seen — the index in `out`
of the shared `tuples_element` that all tuple items fill. -/
structure SeqBuild where
  out : List XNode
  tupIdx : Option Nat

theorem value_sizeOf_pos (v : Value) : 0 < sizeOf v := by
  cases v <;> simp_arith

mutual

/-- `unparse_scalar`: a fresh element whose content is the CDATA text or
the stringified value. -/
def unparse_scalar (env : UEnv) (key : String) (v : Value) :
    Except UErr XNode :=
  match v with
  | .cdata s => .ok (.elem key [] (addContent [] s))
  | _ => do
    let s ← to_string env v
    .ok (.elem key [] (addContent [] s))

/-- `unparse_item`: dispatch on the key — `@`-prefixed keys become
attributes (no CDATA special case on this path: `to_string` falls through
to `tp_str`), `"#text"` becomes element content, anything else a child
element. -/
def unparse_item (env : UEnv) (eb : EBuild) (key : String) (v : Value) :
    Except UErr EBuild :=
  if firstCharIs '@' key then do
    let s ← to_string env v
    .ok ⟨eb.attrs ++ [(dropFirstChar key, s)], eb.children⟩
  else if key = "#text" then
    match v with
    | .cdata s => .ok ⟨eb.attrs, addContent eb.children s⟩
    | _ => do
      let s ← to_string env v
      .ok ⟨eb.attrs, addContent eb.children s⟩
  else do
    let ns ← unparse_element env key v false
    .ok ⟨eb.attrs, eb.children ++ ns⟩
termination_by (sizeOf v, 2)

/-- The `PyDict_Next` loop of `unparse_dict` (keys are strings by the
model's typing, so the string-key check never fires). -/
def unparse_dictItems (env : UEnv) (eb : EBuild) :
    List (String × Value) → Except UErr EBuild
  | [] => .ok eb
  | (k, v) :: rest => do
    let eb' ← unparse_item env eb k v
    unparse_dictItems env eb' rest
termination_by m => (sizeOf m, 3)

/-- `unparse_dict`: a fresh element filled by the item rule over the dict's
entries in insertion order. -/
def unparse_dict (env : UEnv) (key : String) (m : List (String × Value)) :
    Except UErr XNode := do
  let eb ← unparse_dictItems env ⟨[], []⟩ m
  .ok (.elem key eb.attrs eb.children)
termination_by (sizeOf m, 4)

/-- One iteration of `unparse_element`'s sequence loop. `size` is the
length of the whole sequence (the root-constraint check compares it
against 1). -/
def unparse_seqItem (env : UEnv) (key : String) (is_root : Bool) (size : Nat)
    (st : SeqBuild) (item : Value) : Except UErr SeqBuild :=
  match item with
  | .map m =>
    if is_root ∧ size > 1 then .error .rootMultipleDicts
    else do
      let nd ← unparse_dict env key m
      .ok ⟨st.out ++ [nd], st.tupIdx⟩
  | .tup k v => unparse_seqTuple env key st k v
  | .seq [.str k, b] => unparse_seqTuple env key st k b
  | .seq [_, _] => .error .tupleKeyNotString
  | .seq _ => .error .tupleBadSize
  | _ =>
    if is_root ∧ size > 1 then .error .rootMultipleScalars
    else do
      let nd ← unparse_scalar env key item
      .ok ⟨st.out ++ [nd], st.tupIdx⟩
termination_by (sizeOf item, 5)

/-- A `(key, value)` pair inside a sequence: lazily create the shared
`tuples_element` (appended to the parent at creation time), then apply the
item rule to it in place. -/
def unparse_seqTuple (env : UEnv) (key : String) (st : SeqBuild)
    (k : String) (v : Value) : Except UErr SeqBuild :=
  let st' : SeqBuild :=
    match st.tupIdx with
    | some _ => st
    | none => ⟨st.out ++ [.elem key [] []], some st.out.length⟩
  match st'.tupIdx with
  | some i =>
    match st'.out.get? i with
    | some (.elem nm ats cs) => do
      let eb ← unparse_item env ⟨ats, cs⟩ k v
      .ok ⟨st'.out.set i (.elem nm eb.attrs eb.children), some i⟩
    | _ => .error .badArgument
  | none => .error .badArgument
termination_by (sizeOf v, 3)

/-- The sequence loop of `unparse_element`. -/
def unparse_seqItems (env : UEnv) (key : String) (is_root : Bool) (size : Nat)
    (st : SeqBuild) : List Value → Except UErr SeqBuild
  | [] => .ok st
  | item :: rest => do
    let st' ← unparse_seqItem env key is_root size st item
    unparse_seqItems env key is_root size st' rest
termination_by items => (sizeOf items, 6)

/-- `unparse_element`: dicts become one element; lists and tuples are
iterated by the sequence loop (a Python tuple iterates its two slots, the
key string first); anything else is a scalar element.  Returns the nodes
appended to the parent, in order. -/
def unparse_element (env : UEnv) (key : String) (v : Value) (is_root : Bool) :
    Except UErr (List XNode) :=
  match v with
  | .map m => do
    let nd ← unparse_dict env key m
    .ok [nd]
  | .seq items => do
    let st ← unparse_seqItems env key is_root items.length ⟨[], none⟩ items
    .ok st.out
  | .tup k w => do
    let st ← unparse_seqItem env key is_root 2 ⟨[], none⟩ (.str k)
    let st' ← unparse_seqItem env key is_root 2 st w
    .ok st'.out
  | _ => do
    let nd ← unparse_scalar env key v
    .ok [nd]
termination_by (sizeOf v, 1)
decreasing_by
  all_goals simp_wf
  all_goals (first
    | omega
    | (have hw := value_sizeOf_pos w; omega))

end

/-- `xml_unparse` up to serialization: checks the one-entry dict argument
and returns the node installed as the document root
(`xmlGetLastChild(dummy)`) — `none` when the loop appended no node.  The
byte/string output flag only selects the encoding of the serialized
buffer and is external to the tree model. -/
def xml_unparse (env : UEnv) (root : Value) : Except UErr (Option XNode) :=
  match root with
  | .map m =>
    match m with
    | [(k, v)] => do
      let ns ← unparse_element env k v true
      .ok ns.getLast?
    | _ => .error .badRootCount
  | _ => .error .badArgument

/-! ## Serialize-then-tokenize: the event stream of a document -/

/-- XML whitespace, as classified when deciding `SIGNIFICANT_WHITESPACE`. -/
def isXmlWS (s : String) : Bool :=
  s.toList.all (fun c => c = ' ' || c = '\t' || c = '\n' || c = '\r')

mutual

/-- The reader events for one node of a serialized document: open,
attributes in order, children, close.  Whitespace-only text nodes are
reported as `SIGNIFICANT_WHITESPACE`, which the parse loop ignores, so
they contribute no event. -/
def nodeEvents : XNode → List Event
  | .xtext s => if isXmlWS s then [] else [.text s]
  | .elem n attrs cs =>
    .elementOpen n :: (attrs.map (fun a => Event.attribute a.1 a.2)) ++
      listEvents cs ++ [.endElement]

/-- Events of a sibling list, in document order. -/
def listEvents : List XNode → List Event
  | [] => []
  | c :: cs => nodeEvents c ++ listEvents cs

end

mutual

/-- Number of parser stack frames needed above the current one to walk an
element (its open pushes the parent; nested children push deeper). -/
def heightN : XNode → Nat
  | .xtext _ => 0
  | .elem _ _ cs => 1 + heightList cs

/-- Maximum height over a sibling list. -/
def heightList : List XNode → Nat
  | [] => 0
  | c :: cs => max (heightN c) (heightList cs)

end

/-- A trivial instantiation of the runtime renderings, for concrete
evaluations that never reach them. -/
def envTriv : UEnv :=
  ⟨fun _ => "", fun _ => ""⟩

/-! ## Reference element semantics

A recursive restatement of the machine's effect on one document subtree:
processing the events of a node from a state whose current frame is the
parent transforms only the parent's `(dict, list)` slots.  The equivalence
with the event loop is `runSeg_nodeEvents` below; the round-trip proof
works against this recursive form. -/

/-- Effect of one TEXT event on the current `(dict, list)` slots. -/
def textStep (ext : Ext) (pname : String) (dl : DSlot × LSlot) (v : String) :
    Except PErr (DSlot × LSlot) :=
  match postprocess_value ext pname v with
  | none => .error (.badValue pname v)
  | some w => .ok (.dict (dictSet dl.1.entries "#text" w), dl.2)

/-- Effect of the attribute events of an element-open on its fresh dict
slot. -/
def attrsProc (ext : Ext) (d : DSlot) :
    List (String × String) → Except PErr DSlot
  | [] => .ok d
  | (a, v) :: rest =>
    match postprocess_value ext a v with
    | none => .error (.badValue a v)
    | some w => attrsProc ext (.dict (dictSet d.entries ("@" ++ a) w)) rest

mutual

/-- Effect of one child node on the parent's `(dict, list)` slots: text
coerces under the parent's name into `#text` (whitespace-only text nodes
produce no event and change nothing); a child element is processed
recursively and its close result merged. -/
def nodeProc (ext : Ext) (pname : String) (dl : DSlot × LSlot) :
    XNode → Except PErr (DSlot × LSlot)
  | .xtext s =>
    if isXmlWS s then .ok dl else textStep ext pname dl s
  | .elem n attrs cs => do
    let d0 ← attrsProc ext .pyNone attrs
    let dlc ← listProc ext n (d0, .pyNone) cs
    match closeResult dlc.1 dlc.2 with
    | none => .ok dl
    | some r => .ok (mergeChild dl.1 dl.2 n r)

/-- Effect of a sibling list, in document order. -/
def listProc (ext : Ext) (pname : String) (dl : DSlot × LSlot) :
    List XNode → Except PErr (DSlot × LSlot)
  | [] => .ok dl
  | c :: cs => do
    let dl1 ← nodeProc ext pname dl c
    listProc ext pname dl1 cs

end

/-- `current_result` of one element node under the reference semantics:
attributes into a fresh dict, children, then the close computation. -/
def elemRes (ext : Ext) : XNode → Except PErr (Option Value)
  | .elem n attrs cs => do
    let d0 ← attrsProc ext .pyNone attrs
    let dlc ← listProc ext n (d0, .pyNone) cs
    .ok (closeResult dlc.1 dlc.2)
  | .xtext _ => .ok none

/-! ## The round-trip fragment

`parse ∘ unparse` is not the identity on everything the unparser accepts
(see the C1 counterexample); the Boolean predicates below carve out the
fragment on which it is.  The `Nat` argument is a nesting budget (the
produced element has `heightN ≤` budget), giving the recursion a
decreasing measure and bounding the parser stack. -/

/-- True for element nodes (used to know that `xmlNodeAddContent` cannot
merge into a trailing text sibling). -/
def isElemNode : XNode → Bool
  | .elem _ _ _ => true
  | .xtext _ => false

/-- A sibling list with no top-level text node. -/
def noTextNode (cs : List XNode) : Bool :=
  cs.all isElemNode

/-- Int64 range (rendering then `strtoll` is lossless inside it). -/
def intInRange (n : Int) : Bool :=
  decide (-(2 ^ 63) ≤ n) && decide (n ≤ 2 ^ 63 - 1)

/-- Text content that survives serialize → tokenize unchanged: not
whitespace-only (whitespace-only text comes back as ignorable
`SIGNIFICANT_WHITESPACE`, and the empty string produces no node at all)
and free of `\r` (normalized away by XML parsers). -/
def goodTextStr (s : String) : Bool :=
  !isXmlWS s && !s.toList.contains '\r'

/-- Attribute values that survive attribute-value normalization: free of
tab, newline and carriage return (each normalized to a space). -/
def goodAttrStr (s : String) : Bool :=
  !s.toList.any (fun c => c = '\t' || c = '\n' || c = '\r')

/-- A safe XML name: a letter or underscore followed by letters, digits,
underscores or hyphens.  In particular it is nonempty and starts with
neither `@` nor `#`. -/
def goodName (s : String) : Bool :=
  match s.toList with
  | [] => false
  | c :: rest =>
    (c.isAlpha || c = '_') &&
      rest.all (fun x => x.isAlpha || x.isDigit || x = '_' || x = '-')

/-- Scalars that re-coerce to themselves when rendered as the text content
of an element named `k`: strings under keys outside the coercion table,
int64-range integers under integer keys, booleans under boolean keys. -/
def goodScalarForKey (k : String) (v : Value) : Bool :=
  match v with
  | .str s => (postLookup k).isNone && goodTextStr s
  | .int n => decide (postLookup k = some .pint) && intInRange n
  | .bool _ => decide (postLookup k = some .pbool)
  | _ => false

/-- Scalars that re-coerce to themselves when rendered as the value of an
attribute named `k` (empty and spaced strings are fine here). -/
def goodAttrValForKey (k : String) (v : Value) : Bool :=
  match v with
  | .str s => (postLookup k).isNone && goodAttrStr s
  | .int n => decide (postLookup k = some .pint) && intInRange n
  | .bool _ => decide (postLookup k = some .pbool)
  | _ => false

/-- Pairwise-distinct dict keys. -/
def nodupKeysB : List (String × Value) → Bool
  | [] => true
  | (k, _) :: rest => !rest.any (fun p => p.1 = k) && nodupKeysB rest

/-- A one-entry map whose single key is `#text` (the shape the close
computation unwraps to a bare scalar, so it cannot round-trip as a map). -/
def isSingleTextMap : List (String × Value) → Bool
  | [(k, _)] => k = "#text"
  | _ => false

mutual

/-- Trees that round-trip as one element named `k`: coercion-stable
scalars, maps whose entries satisfy `goodEntries`, or a non-empty tuple
list (items mode). -/
def goodElem : Nat → String → Value → Bool
  | 0, _, _ => false
  | d + 1, k, v =>
    match v with
    | .map m =>
      !m.isEmpty && nodupKeysB m && !isSingleTextMap m && goodEntries d k true m
    | .seq items => !items.isEmpty && goodTups d items
    | _ => goodScalarForKey k v

/-- A list of `(name, value)` tuples whose names are `force_items` element
names and whose values round-trip as elements of those names. -/
def goodTups : Nat → List Value → Bool
  | _, [] => true
  | d, item :: rest =>
    match item with
    | .tup nn w =>
      force_items_set.contains nn && goodName nn && goodElem d nn w &&
        goodTups d rest
    | _ => false

/-- Entries of a map for an element named `ename`: attribute entries form
a prefix (`attrsOK` tracks it); at most one `#text` entry with a scalar
stable under `ename`; child entries have safe names outside `force_items`
and `goodSlot` values. -/
def goodEntries : Nat → String → Bool → List (String × Value) → Bool
  | _, _, _, [] => true
  | d, ename, attrsOK, (key, v) :: rest =>
    if firstCharIs '@' key then
      attrsOK && goodName (dropFirstChar key) &&
        goodAttrValForKey (dropFirstChar key) v && goodEntries d ename true rest
    else if key = "#text" then
      goodScalarForKey ename v && goodEntries d ename false rest
    else
      goodName key && !force_items_set.contains key && goodSlot d key v &&
        goodEntries d ename false rest

/-- Values that round-trip when stored under child key `k` in a parent
map: either a single element (outside `force_list`), or a `Seq` of maps or
of scalars (unparsed as repeated sibling elements, so it needs
`k ∈ force_list` or at least two items to re-group as a `Seq`), or a `Seq`
of tuples (a single items-mode element, outside `force_list`). -/
def goodSlot : Nat → String → Value → Bool
  | 0, _, _ => false
  | d + 1, k, .seq items =>
    !items.isEmpty &&
      (match items with
       | .map _ :: _ =>
         (force_list_set.contains k || decide (items.length ≥ 2)) &&
           goodMapsSeq (d + 1) k items
       | .tup _ _ :: _ =>
         !force_list_set.contains k && goodElem (d + 1) k (.seq items)
       | _ =>
         (force_list_set.contains k || decide (items.length ≥ 2)) &&
           goodScalarsSeq k items)
  | d + 1, k, v => !force_list_set.contains k && goodElem (d + 1) k v

/-- Every item is a map that round-trips as an element named `k`. -/
def goodMapsSeq : Nat → String → List Value → Bool
  | _, _, [] => true
  | d, k, .map mm :: rest => goodElem d k (.map mm) && goodMapsSeq d k rest
  | _, _, _ => false

/-- Every item is a scalar stable under element name `k`. -/
def goodScalarsSeq : String → List Value → Bool
  | _, [] => true
  | k, it :: rest =>
    (match it with
     | .str _ => true
     | .int _ => true
     | .bool _ => true
     | _ => false) && goodScalarForKey k it && goodScalarsSeq k rest

end

/-- The round-trip fragment at the root: a one-entry map with a safe root
name whose value round-trips as that element within the machine's stack
budget (height ≤ `STACK_SIZE + 1`: the root's own open pushes nothing). -/
def goodRoot : Value → Bool
  | .map [(k, v)] => goodName k && goodElem (STACK_SIZE + 1) k v
  | _ => false

/-- Each value in `vs` is realized by the element node of `ns` at the same
position: an element named `k` whose close result is exactly that value
(used for `Seq` slots unparsed as repeated siblings). -/
def sibNodes (ext : Ext) (k : String) (vs : List Value) (ns : List XNode) : Prop :=
  List.Forall₂
    (fun v nd => (∃ attrs cs, nd = .elem k attrs cs) ∧
      elemRes ext nd = .ok (some v)) vs ns

/-- The parent's list slot after items-mode merges: unchanged when no
tuple arrived, else the list extended by the tuples (a fresh list when the
slot was `Py_None`). -/
def lsExtend (l : LSlot) (items : List Value) : LSlot :=
  match items with
  | [] => l
  | _ => .list (l.items ++ items)

/-- The parent's dict slot after attribute/text/child stores: unchanged
when no entry arrived, else the dict extended by the entries (a fresh dict
when the slot was `Py_None`). -/
def dsExtend (d : DSlot) (m : List (String × Value)) : DSlot :=
  match m with
  | [] => d
  | _ => .dict (d.entries ++ m)

/-! ## Round-trip induction statements

One statement per `good*` predicate; `good_master` below proves all four
for every budget by induction. -/

/-- Budget-`d` statement for `goodElem`: the value unparses to a single
element of height at most `d` whose close result is the value itself. -/
def SAprop (env : UEnv) (ext : Ext) (d : Nat) : Prop :=
  ∀ k v, goodElem d k v = true →
    ∃ attrs cs,
      (∀ is_root, unparse_element env k v is_root = .ok [.elem k attrs cs]) ∧
      heightN (.elem k attrs cs) ≤ d ∧
      elemRes ext (.elem k attrs cs) = .ok (some v)

/-- Budget-`d` statement for `goodTups`: the tuple items fill the shared
`tuples_element` with child nodes that, on re-parse, extend the parent's
list slot with exactly those tuples (items mode), leaving the dict slot
untouched. -/
def SBprop (env : UEnv) (ext : Ext) (d : Nat) : Prop :=
  ∀ items, goodTups d items = true →
    ∃ ns, noTextNode ns = true ∧ heightList ns ≤ d ∧
      (∀ (key : String) (is_root : Bool) (size : Nat) (out0 : List XNode)
          (i : Nat) (nm : String) (ats : List (String × String))
          (cs0 : List XNode),
        out0.get? i = some (.elem nm ats cs0) →
        unparse_seqItems env key is_root size ⟨out0, some i⟩ items =
          .ok ⟨out0.set i (.elem nm ats (cs0 ++ ns)), some i⟩) ∧
      (∀ pname dl, listProc ext pname dl ns =
        .ok (dl.1, lsExtend dl.2 items))

/-- Budget-`d` statement for `goodSlot`: the slot value unparses to
sibling nodes that, merged into any parent dict where the key is fresh,
append exactly the entry `(k, v)`. -/
def SDprop (env : UEnv) (ext : Ext) (d : Nat) : Prop :=
  ∀ k v, goodSlot d k v = true → force_items_set.contains k = false →
    ∃ ns, noTextNode ns = true ∧ heightList ns ≤ d ∧
      unparse_element env k v false = .ok ns ∧
      (∀ pname (d0 : DSlot) (l : LSlot), dictGet d0.entries k = none →
        listProc ext pname (d0, l) ns = .ok (.dict (d0.entries ++ [(k, v)]), l))

/-- Budget-`d` statement for `goodEntries`: the dict items build the
attribute list and child nodes whose re-parse reconstructs exactly the
entry list, in order. -/
def SCprop (env : UEnv) (ext : Ext) (d : Nat) : Prop :=
  ∀ ename b m, goodEntries d ename b m = true → nodupKeysB m = true →
    ∃ atts ns,
      (b = false → atts = []) ∧ heightList ns ≤ d ∧
      (∀ (ats0 : List (String × String)) (cs0 : List XNode),
        ("#text" ∈ m.map Prod.fst → noTextNode cs0 = true) →
        unparse_dictItems env ⟨ats0, cs0⟩ m = .ok ⟨ats0 ++ atts, cs0 ++ ns⟩) ∧
      (∀ d0 : DSlot, (∀ p ∈ m, dictGet d0.entries p.1 = none) →
        ∃ d1, attrsProc ext d0 atts = .ok d1 ∧
          listProc ext ename (d1, .pyNone) ns = .ok (dsExtend d0 m, .pyNone))

/-! ## Spec-side definitions

The following definitions follow the specification's words (not the C
code); the refinement theorems below compare the code translation against
them. -/

/-- Modelled from the spec (§4.2 element-close table, row `Map` / `Null`):
if the `Map` has exactly one entry and that entry's key is `"#text"`,
unwrap to the bare scalar; else the `Map` itself. -/
def spec_close_map_only (m : List (String × Value)) : Value :=
  if m.length = 1 ∧ m.head?.map Prod.fst = some "#text" then
    match m with
    | (_, v) :: _ => v
    | [] => .map m
  else .map m

/-- Modelled from the spec (§4.2 element-close table, row `Map` / `Seq`):
append each `(k, v)` of the `Map` to the end of the `Seq` in insertion
order; the result is the `Seq`. -/
def spec_close_map_list (m : List (String × Value)) (l : List Value) : Value :=
  .seq (l ++ m.map (fun p => .tup p.1 p.2))

/-- Modelled from the spec (§8, scenario 6 rendering): the timestamp text
is `YYYY-MM-DDThh:mm:ssZ` when the microsecond field is zero and
`YYYY-MM-DDThh:mm:ss.ssssssZ` otherwise. -/
def spec_timestamp_text (t : Timestamp) : String :=
  if t.microsecond = 0 then
    padZeros 4 t.year ++ "-" ++ padZeros 2 t.month ++ "-" ++ padZeros 2 t.day ++ "T" ++
      padZeros 2 t.hour ++ ":" ++ padZeros 2 t.minute ++ ":" ++ padZeros 2 t.second ++ "Z"
  else
    padZeros 4 t.year ++ "-" ++ padZeros 2 t.month ++ "-" ++ padZeros 2 t.day ++ "T" ++
      padZeros 2 t.hour ++ ":" ++ padZeros 2 t.minute ++ ":" ++ padZeros 2 t.second ++
      "." ++ padZeros 6 t.microsecond ++ "Z"

/-- The scalar variant the coercion table declares for a key: used to state
that a successfully coerced value always carries the declared variant. -/
def variantOK (k : String) (v : Value) : Prop :=
  match postLookup k with
  | some .pint => ∃ n, v = .int n
  | some .pfloat => ∃ q, v = .float q
  | some .pbool => ∃ b, v = .bool b
  | some .pdate => ∃ t, v = .ts t
  | some .pversion => (∃ n, v = .int n) ∨ (∃ q, v = .float q)
  | none => ∃ s, v = .str s

/-! ## Dict lemmas -/

theorem dictGet_dictSet_self (m : List (String × Value)) (k : String) (v : Value) :
    dictGet (dictSet m k v) k = some v := by
  induction m with
  | nil => simp [dictSet, dictGet]
  | cons p rest ih =>
    by_cases hp : p.1 = k
    · simp [dictSet, dictGet, hp]
    · simp [dictSet, dictGet, hp, ih]

theorem dictSet_dictSet (m : List (String × Value)) (k : String) (a b : Value) :
    dictSet (dictSet m k a) k b = dictSet m k b := by
  induction m with
  | nil => simp [dictSet]
  | cons p rest ih =>
    by_cases hp : p.1 = k
    · simp [dictSet, hp]
    · simp [dictSet, hp, ih]

@[simp] theorem entries_dict (m : List (String × Value)) :
    (DSlot.dict m).entries = m := rfl

@[simp] theorem entries_pyNone : DSlot.pyNone.entries = [] := rfl

@[simp] theorem items_list (l : List Value) : (LSlot.list l).items = l := rfl

@[simp] theorem items_pyNone : LSlot.pyNone.items = [] := rfl

/-! ## Decimal rendering lemmas -/

theorem digitChar_props (m : Nat) (h : m < 10) :
    (Char.ofNat (48 + m)).isDigit = true ∧
    isCSpace (Char.ofNat (48 + m)) = false ∧
    Char.ofNat (48 + m) ≠ '-' ∧ Char.ofNat (48 + m) ≠ '+' ∧
    (Char.ofNat (48 + m)).toNat = 48 + m ∧
    ¬(Char.ofNat (48 + m) = ' ' ∨ Char.ofNat (48 + m) = '\t' ∨
      Char.ofNat (48 + m) = '\n' ∨ Char.ofNat (48 + m) = '\r') := by
  interval_cases m <;>
    exact ⟨by decide, by decide, by decide, by decide, by decide, by decide⟩

theorem natDigitsRevF_shape (fuel : Nat) :
    ∀ n, n < fuel →
      natDigitsRevF fuel n ≠ [] ∧
      (∀ c ∈ natDigitsRevF fuel n, ∃ j, j < 10 ∧ c = Char.ofNat (48 + j)) ∧
      digitsVal (natDigitsRevF fuel n).reverse = n := by
  induction fuel with
  | zero => intro n hn; omega
  | succ f ih =>
    intro n hn
    by_cases h10 : n < 10
    · refine ⟨by simp [natDigitsRevF, h10], ?_, ?_⟩
      · intro c hc
        simp [natDigitsRevF, h10] at hc
        exact ⟨n, h10, hc⟩
      · simp [natDigitsRevF, h10, digitsVal, (digitChar_props n h10).2.2.2.2.1]
    · have hdiv : n / 10 < f := by omega
      have hrec := ih (n / 10) hdiv
      have hmod : n % 10 < 10 := Nat.mod_lt _ (by omega)
      refine ⟨by simp [natDigitsRevF, h10], ?_, ?_⟩
      · intro c hc
        simp only [natDigitsRevF, h10, if_false, ite_false, List.mem_cons] at hc
        rcases hc with hc | hc
        · exact ⟨n % 10, hmod, hc⟩
        · exact hrec.2.1 c hc
      · have happ : (natDigitsRevF (f + 1) n).reverse =
            (natDigitsRevF f (n / 10)).reverse ++ [Char.ofNat (48 + n % 10)] := by
          simp [natDigitsRevF, h10]
        rw [happ]
        have hfold : ∀ (xs : List Char) (c : Char),
            digitsVal (xs ++ [c]) = 10 * digitsVal xs + (c.toNat - 48) := by
          intro xs c
          simp [digitsVal, List.foldl_append]
          omega
        rw [hfold, hrec.2.2, (digitChar_props (n % 10) hmod).2.2.2.2.1]
        omega

theorem pyNatStr_toList (n : Nat) :
    (pyNatStr n).toList = (natDigitsRevF (n + 1) n).reverse := rfl

theorem strtoll10_pyIntStr (n : Int) (h : intInRange n = true) :
    strtoll10 (pyIntStr n) = (n, false) := by
  simp only [intInRange, Bool.and_eq_true, decide_eq_true_eq] at h
  obtain ⟨hlo, hhi⟩ := h
  obtain ⟨hne, hdig, hval⟩ :=
    natDigitsRevF_shape (n.natAbs + 1) n.natAbs (by omega)
  have hdigR : ∀ c ∈ (natDigitsRevF (n.natAbs + 1) n.natAbs).reverse,
      ∃ j, j < 10 ∧ c = Char.ofNat (48 + j) := by
    intro c hc
    obtain ⟨j, hj, hcj⟩ := hdig c (List.mem_reverse.mp hc)
    exact ⟨j, hj, hcj⟩
  rcases hcons : (natDigitsRevF (n.natAbs + 1) n.natAbs).reverse with _ | ⟨c0, dt⟩
  · exact absurd (List.reverse_eq_nil_iff.mp hcons) hne
  · rw [hcons] at hdigR hval
    have hdig := hdigR
    obtain ⟨j0, hj0, hc0⟩ := hdig c0 (by simp)
    have hc0space : isCSpace c0 = false := by
      rw [hc0]; exact (digitChar_props j0 hj0).2.1
    have hc0minus : ¬c0 = '-' := by rw [hc0]; exact (digitChar_props j0 hj0).2.2.1
    have hc0plus : ¬c0 = '+' := by rw [hc0]; exact (digitChar_props j0 hj0).2.2.2.1
    have htake : (c0 :: dt).takeWhile Char.isDigit = c0 :: dt := by
      refine List.takeWhile_eq_self_iff.mpr ?_
      intro c hc
      obtain ⟨j, hj, hcj⟩ := hdig c hc
      rw [hcj]; exact (digitChar_props j hj).1
    have hnat : (pyNatStr n.natAbs).toList = c0 :: dt := by
      rw [pyNatStr_toList, hcons]
    by_cases hneg : n < 0
    · have habs : -((n.natAbs : Int)) = n := by omega
      have hstr : (pyIntStr n).toList = '-' :: c0 :: dt := by
        simp only [pyIntStr, if_pos hneg]
        show ("-" ++ pyNatStr n.natAbs).data = '-' :: c0 :: dt
        rw [String.data_append, ← hnat]
        rfl
      unfold strtoll10
      rw [hstr]
      have hdash : isCSpace '-' = false := by decide
      simp only [List.dropWhile_cons, hdash, Bool.false_eq_true, if_false,
        ite_false, if_pos rfl, htake, List.isEmpty_cons, if_true, ite_true]
      rw [hval]
      have h1 : ¬(-(n.natAbs : Int) < -(2 ^ 63)) := by omega
      have h2 : ¬(-(n.natAbs : Int) > 2 ^ 63 - 1) := by omega
      simp only [h1, if_false, ite_false, h2, habs]
      rw [if_neg (by omega : ¬n < -(2 ^ 63)), if_neg (by omega : ¬n > 2 ^ 63 - 1)]
    · have habs : ((n.natAbs : Int)) = n := by omega
      have hstr : (pyIntStr n).toList = c0 :: dt := by
        simp only [pyIntStr, if_neg hneg]
        exact hnat
      unfold strtoll10
      rw [hstr]
      simp only [List.dropWhile_cons, hc0space, Bool.false_eq_true, if_false,
        ite_false, hc0minus, hc0plus, htake, List.isEmpty_cons]
      rw [hval]
      have h1 : ¬((n.natAbs : Int) < -(2 ^ 63)) := by omega
      have h2 : ¬((n.natAbs : Int) > 2 ^ 63 - 1) := by omega
      simp only [h1, if_false, ite_false, h2, habs]
      rw [if_neg (by omega : ¬n < -(2 ^ 63)), if_neg (by omega : ¬n > 2 ^ 63 - 1)]

theorem pyIntStr_not_ws (n : Int) : isXmlWS (pyIntStr n) = false := by
  obtain ⟨hne, hdig, _⟩ := natDigitsRevF_shape (n.natAbs + 1) n.natAbs (by omega)
  rcases hcons : (natDigitsRevF (n.natAbs + 1) n.natAbs).reverse with _ | ⟨c0, dt⟩
  · exact absurd (List.reverse_eq_nil_iff.mp hcons) hne
  · obtain ⟨j0, hj0, hc0⟩ := hdig c0 (List.mem_reverse.mp (by rw [hcons]; simp))
    have hnat : (pyNatStr n.natAbs).toList = c0 :: dt := by
      rw [pyNatStr_toList, hcons]
    have hc0ws : (c0 = ' ' || c0 = '\t' || c0 = '\n' || c0 = '\r') = false := by
      rw [hc0]
      have := (digitChar_props j0 hj0).2.2.2.2.2
      simp only [Bool.or_eq_false_iff]
      refine ⟨⟨⟨?_, ?_⟩, ?_⟩, ?_⟩ <;> simp only [decide_eq_false_iff_not] <;>
        intro hx <;> exact this (by simp [hx])
    by_cases hneg : n < 0
    · have hstr : (pyIntStr n).toList = '-' :: c0 :: dt := by
        simp only [pyIntStr, if_pos hneg]
        show ("-" ++ pyNatStr n.natAbs).data = '-' :: c0 :: dt
        rw [String.data_append, ← hnat]
        rfl
      unfold isXmlWS
      rw [hstr, List.all_cons]
      have hdash : (('-' : Char) = ' ' || ('-' : Char) = '\t' ||
          ('-' : Char) = '\n' || ('-' : Char) = '\r') = false := by decide
      rw [hdash, Bool.false_and]
    · have hstr : (pyIntStr n).toList = c0 :: dt := by
        simp only [pyIntStr, if_neg hneg]
        exact hnat
      unfold isXmlWS
      rw [hstr, List.all_cons, hc0ws, Bool.false_and]

/-! ## Rendering stability -/

theorem render_scalar_text (env : UEnv) (ext : Ext) (k : String) (v : Value)
    (h : goodScalarForKey k v = true) :
    ∃ s, to_string env v = .ok s ∧ isXmlWS s = false ∧
      postprocess_value ext k s = some v := by
  cases v with
  | str s =>
    simp only [goodScalarForKey, goodTextStr, Bool.and_eq_true, Option.isNone_iff_eq_none,
      Bool.not_eq_true'] at h
    exact ⟨s, rfl, h.2.1, by simp [postprocess_value, h.1, postprocess_xml_str]⟩
  | int n =>
    simp only [goodScalarForKey, Bool.and_eq_true, decide_eq_true_eq] at h
    refine ⟨pyIntStr n, rfl, pyIntStr_not_ws n, ?_⟩
    simp [postprocess_value, h.1, postprocess_xml_int, strtoll10_pyIntStr n h.2]
  | bool b =>
    simp only [goodScalarForKey, decide_eq_true_eq] at h
    cases b
    · exact ⟨"false", rfl, by decide, by simp [postprocess_value, h, postprocess_xml_bool]⟩
    · exact ⟨"true", rfl, by decide, by simp [postprocess_value, h, postprocess_xml_bool]⟩
  | null => simp [goodScalarForKey] at h
  | float q => simp [goodScalarForKey] at h
  | ts t => simp [goodScalarForKey] at h
  | cdata s => simp [goodScalarForKey] at h
  | map m => simp [goodScalarForKey] at h
  | seq l => simp [goodScalarForKey] at h
  | tup a b => simp [goodScalarForKey] at h

theorem render_scalar_attr (env : UEnv) (ext : Ext) (k : String) (v : Value)
    (h : goodAttrValForKey k v = true) :
    ∃ s, to_string env v = .ok s ∧ postprocess_value ext k s = some v := by
  cases v with
  | str s =>
    simp only [goodAttrValForKey, Bool.and_eq_true, Option.isNone_iff_eq_none] at h
    exact ⟨s, rfl, by simp [postprocess_value, h.1, postprocess_xml_str]⟩
  | int n =>
    simp only [goodAttrValForKey, Bool.and_eq_true, decide_eq_true_eq] at h
    exact ⟨pyIntStr n, rfl, by
      simp [postprocess_value, h.1, postprocess_xml_int, strtoll10_pyIntStr n h.2]⟩
  | bool b =>
    simp only [goodAttrValForKey, decide_eq_true_eq] at h
    cases b
    · exact ⟨"false", rfl, by simp [postprocess_value, h, postprocess_xml_bool]⟩
    · exact ⟨"true", rfl, by simp [postprocess_value, h, postprocess_xml_bool]⟩
  | null => simp [goodAttrValForKey] at h
  | float q => simp [goodAttrValForKey] at h
  | ts t => simp [goodAttrValForKey] at h
  | cdata s => simp [goodAttrValForKey] at h
  | map m => simp [goodAttrValForKey] at h
  | seq l => simp [goodAttrValForKey] at h
  | tup a b => simp [goodAttrValForKey] at h

/-! ## Name and builder lemmas -/

theorem goodName_not_at (s : String) (h : goodName s = true) :
    firstCharIs '@' s = false := by
  unfold goodName at h
  unfold firstCharIs
  rcases hs : s.toList with _ | ⟨c, r⟩
  · rw [hs] at h
  · rw [hs] at h
    simp only [Bool.and_eq_true, Bool.or_eq_true, decide_eq_true_eq] at h
    simp only [decide_eq_false_iff_not]
    intro hc
    subst hc
    rcases h.1 with hA | hU
    · exact absurd hA (by decide)
    · exact absurd hU (by decide)

theorem goodName_not_text (s : String) (h : goodName s = true) : s ≠ "#text" := by
  intro he
  subst he
  exact absurd h (by decide)

theorem at_key_decomp (key : String) (h : firstCharIs '@' key = true) :
    key = "@" ++ dropFirstChar key := by
  unfold firstCharIs at h
  cases key with
  | mk data =>
    rcases data with _ | ⟨c, r⟩
    · simp at h
    · have hc : c = '@' := by simpa using h
      subst hc
      show String.mk ('@' :: r) = "@" ++ dropFirstChar (String.mk ('@' :: r))
      have : dropFirstChar (String.mk ('@' :: r)) = String.mk r := rfl
      rw [this]
      show String.mk ('@' :: r) = String.mk ("@".data ++ r)
      rfl

theorem addContent_noText (cs : List XNode) (s : String)
    (hcs : noTextNode cs = true) (hs : s ≠ "") :
    addContent cs s = cs ++ [.xtext s] := by
  unfold addContent
  rw [if_neg hs]
  rcases hl : cs.getLast? with _ | nd
  · simp
  · have hmem : nd ∈ cs := by
      obtain ⟨hne2, hnd⟩ := List.mem_getLast?_eq_getLast (x := nd) (by rw [hl]; rfl)
      rw [hnd]
      exact List.getLast_mem hne2
    unfold noTextNode at hcs
    rw [List.all_eq_true] at hcs
    have := hcs nd hmem
    cases nd with
    | elem nm ats ch => simp
    | xtext t => simp [isElemNode] at this

/-! ## More dict lemmas -/

theorem dictGet_append (a b : List (String × Value)) (k : String) :
    dictGet (a ++ b) k =
      match dictGet a k with
      | some v => some v
      | none => dictGet b k := by
  induction a with
  | nil => simp [dictGet]
  | cons p rest ih =>
    by_cases hp : p.1 = k <;> simp [dictGet, hp, ih]

theorem dictSet_fresh (a : List (String × Value)) (k : String) (v : Value)
    (h : dictGet a k = none) : dictSet a k v = a ++ [(k, v)] := by
  induction a with
  | nil => simp [dictSet]
  | cons p rest ih =>
    rw [dictGet] at h
    by_cases hp : p.1 = k
    · simp [hp] at h
    · rw [if_neg hp] at h
      simp [dictSet, hp, ih h]

theorem dictGet_append_self (a : List (String × Value)) (k : String) (x : Value)
    (h : dictGet a k = none) : dictGet (a ++ [(k, x)]) k = some x := by
  rw [dictGet_append, h]
  simp [dictGet]

theorem dictSet_append_self (a : List (String × Value)) (k : String) (x y : Value)
    (h : dictGet a k = none) : dictSet (a ++ [(k, x)]) k y = a ++ [(k, y)] := by
  induction a with
  | nil => simp [dictSet]
  | cons p rest ih =>
    rw [dictGet] at h
    by_cases hp : p.1 = k
    · simp [hp] at h
    · rw [if_neg hp] at h
      simp [dictSet, hp, ih h]

theorem dictGet_append_none (a : List (String × Value)) (b : List (String × Value))
    (k : String) (ha : dictGet a k = none) (hb : dictGet b k = none) :
    dictGet (a ++ b) k = none := by
  rw [dictGet_append, ha, hb]

/-! ## Reference semantics composition -/

theorem listProc_append (ext : Ext) (pname : String) (as : List XNode) :
    ∀ (bs : List XNode) (dl : DSlot × LSlot),
    listProc ext pname dl (as ++ bs) =
      match listProc ext pname dl as with
      | .error e => .error e
      | .ok dl1 => listProc ext pname dl1 bs := by
  induction as with
  | nil => intro bs dl; simp [listProc]
  | cons c rest ih =>
    intro bs dl
    rw [List.cons_append, listProc, listProc]
    rcases hnp : nodeProc ext pname dl c with e | dl1
    · simp
    · simp only [except_ok_bind]
      exact ih bs dl1

theorem nodeProc_elem (ext : Ext) (pname : String) (dl : DSlot × LSlot)
    (n : String) (attrs : List (String × String)) (cs : List XNode) :
    nodeProc ext pname dl (.elem n attrs cs) =
      match elemRes ext (.elem n attrs cs) with
      | .error e => .error e
      | .ok none => .ok dl
      | .ok (some r) => .ok (mergeChild dl.1 dl.2 n r) := by
  rw [nodeProc, elemRes]
  rcases hap : attrsProc ext .pyNone attrs with e | d0
  · simp
  · simp only [except_ok_bind]
    rcases hlp : listProc ext n (d0, .pyNone) cs with e | dlc
    · simp
    · simp only [except_ok_bind]
      rcases closeResult dlc.1 dlc.2 with _ | r <;> rfl

/-! ## Run lemmas -/


theorem step_stack_le (ext : Ext) (s s' : PState) (e : Event)
    (h : step ext s e = .ok (.inl s')) (hs : s.stack.length ≤ STACK_SIZE) :
    s'.stack.length ≤ STACK_SIZE := by
  cases e with
  | elementOpen n =>
    cases hc : s.cur with
    | none =>
      simp only [step, hc] at h
      cases h
      simpa using hs
    | some f =>
      by_cases hlen : s.stack.length ≥ STACK_SIZE
      · simp only [step, hc, if_pos hlen] at h
        exact Except.noConfusion h
      · simp only [step, hc, if_neg hlen] at h
        cases h
        simp only [List.length_cons]
        omega
  | «attribute» a v =>
    cases hc : s.cur with
    | none =>
      simp only [step, hc] at h
      exact Except.noConfusion h
    | some f =>
      simp only [step, hc] at h
      rcases hpv : postprocess_value ext a v with _ | val <;> rw [hpv] at h
      · exact Except.noConfusion h
      · cases h
        simpa using hs
  | text v =>
    cases hc : s.cur with
    | none =>
      simp only [step, hc] at h
      exact Except.noConfusion h
    | some f =>
      simp only [step, hc] at h
      rcases hpv : postprocess_value ext f.name v with _ | val <;> rw [hpv] at h
      · exact Except.noConfusion h
      · cases h
        simpa using hs
  | endElement =>
    cases hc : s.cur with
    | none =>
      simp only [step, hc] at h
      exact Except.noConfusion h
    | some f =>
      cases hst : s.stack with
      | nil =>
        simp only [step, hc, hst] at h
        rcases hcr : closeResult f.dict f.list with _ | r <;> rw [hcr] at h <;>
          simp at h
      | cons p rest =>
        rw [hst] at hs
        simp only [step, hc, hst] at h
        rcases hcr : closeResult f.dict f.list with _ | r <;> rw [hcr] at h <;>
          cases h <;> simp_all <;> omega

theorem runSeg_stack_le (ext : Ext) (evs : List Event) :
    ∀ s s', runSeg ext s evs = .ok (.inl s') →
      s.stack.length ≤ STACK_SIZE → s'.stack.length ≤ STACK_SIZE := by
  induction evs with
  | nil =>
    intro s s' h hs
    simp only [runSeg] at h
    cases h
    exact hs
  | cons e rest ih =>
    intro s s' h hs
    rw [runSeg] at h
    rcases hst : step ext s e with er | sv
    · rw [hst] at h; cases h
    · rcases sv with s1 | v
      · rw [hst] at h
        exact ih s1 s' h (step_stack_le ext s s1 e hst hs)
      · rw [hst] at h; cases h

theorem runSeg_append_inl (ext : Ext) (a : List Event) :
    ∀ (b : List Event) (s s' : PState), runSeg ext s a = .ok (.inl s') →
      runSeg ext s (a ++ b) = runSeg ext s' b := by
  induction a with
  | nil =>
    intro b s s' h
    simp only [runSeg] at h
    cases h
    simp
  | cons e t ih =>
    intro b s s' h
    rw [runSeg] at h
    rw [List.cons_append, runSeg]
    rcases hst : step ext s e with er | sv
    · rw [hst] at h; cases h
    · rcases sv with s1 | v
      · rw [hst] at h
        exact ih b s1 s' h
      · rw [hst] at h; cases h

theorem runFrom_append_inl (ext : Ext) (a b : List Event) (s s' : PState)
    (h : runSeg ext s a = .ok (.inl s')) :
    runFrom ext s (a ++ b) = runFrom ext s' b := by
  rw [runFrom, runSeg_append_inl ext a b s s' h, runFrom]

theorem runSeg_cons (ext : Ext) (s : PState) (e : Event) (rest : List Event) :
    runSeg ext s (e :: rest) =
      match step ext s e with
      | .error er => .error er
      | .ok (.inr v) => .ok (.inr v)
      | .ok (.inl s') => runSeg ext s' rest := rfl

theorem runSeg_append_any (ext : Ext) (a : List Event) :
    ∀ (b : List Event) (s : PState),
    runSeg ext s (a ++ b) =
      match runSeg ext s a with
      | .error e => .error e
      | .ok (.inr v) => .ok (.inr v)
      | .ok (.inl s') => runSeg ext s' b := by
  induction a with
  | nil =>
    intro b s
    simp [runSeg]
  | cons e t ih =>
    intro b s
    rw [List.cons_append, runSeg, runSeg]
    rcases hst : step ext s e with er | sv
    · rfl
    · rcases sv with s1 | v
      · exact ih b s1
      · rfl

theorem runSeg_attrEvents (ext : Ext) (attrs : List (String × String)) :
    ∀ (n : String) (d : DSlot) (l : LSlot) (st : List Frame),
    runSeg ext ⟨some ⟨n, d, l⟩, st⟩
        (attrs.map (fun a => Event.attribute a.1 a.2)) =
      (attrsProc ext d attrs).map
        (fun d' => Sum.inl ⟨some ⟨n, d', l⟩, st⟩) := by
  induction attrs with
  | nil =>
    intro n d l st
    simp [runSeg, attrsProc, Except.map]
  | cons a rest ih =>
    rcases a with ⟨an, av⟩
    intro n d l st
    rw [List.map_cons, runSeg]
    rcases hpv : postprocess_value ext an av with _ | w
    · have hstep : step ext ⟨some ⟨n, d, l⟩, st⟩ (.attribute an av) =
          .error (.badValue an av) := by
        simp [step, hpv]
      rw [hstep, attrsProc, hpv]
      rfl
    · have hstep : step ext ⟨some ⟨n, d, l⟩, st⟩ (.attribute an av) =
          .ok (.inl ⟨some ⟨n, .dict (dictSet d.entries ("@" ++ an) w), l⟩, st⟩) := by
        simp [step, hpv]
      rw [hstep, attrsProc, hpv]
      exact ih n (.dict (dictSet d.entries ("@" ++ an) w)) l st

mutual

theorem runSeg_nodeEvents (ext : Ext) (t : XNode) :
    ∀ (f : Frame) (st : List Frame), st.length + heightN t ≤ STACK_SIZE →
    runSeg ext ⟨some f, st⟩ (nodeEvents t) =
      (nodeProc ext f.name (f.dict, f.list) t).map
        (fun dl => Sum.inl ⟨some ⟨f.name, dl.1, dl.2⟩, st⟩) := by
  intro f st hd
  cases t with
  | xtext s =>
    by_cases hws : isXmlWS s
    · simp [nodeEvents, hws, runSeg, nodeProc]
    · rcases hpv : postprocess_value ext f.name s with _ | w
      · have hstep : step ext ⟨some f, st⟩ (.text s) =
            .error (.badValue f.name s) := by
          simp [step, hpv]
        simp [nodeEvents, hws, runSeg, hstep, nodeProc, textStep, hpv]
      · have hstep : step ext ⟨some f, st⟩ (.text s) =
            .ok (.inl ⟨some ⟨f.name, .dict (dictSet f.dict.entries "#text" w),
              f.list⟩, st⟩) := by
          simp [step, hpv]
        simp [nodeEvents, hws, runSeg, hstep, nodeProc, textStep, hpv]
  | elem n attrs cs =>
    have h1 : heightN (.elem n attrs cs) = 1 + heightList cs := by rw [heightN]
    rw [h1] at hd
    have hlt : ¬st.length ≥ STACK_SIZE := by omega
    have hstep : step ext ⟨some f, st⟩ (.elementOpen n) =
        .ok (.inl ⟨some ⟨n, .pyNone, .pyNone⟩, f :: st⟩) := by
      simp [step, hlt]
    rw [nodeEvents, runSeg_append_any, runSeg_append_any, runSeg_cons, hstep]
    simp only []
    rw [runSeg_attrEvents]
    rcases hap : attrsProc ext .pyNone attrs with er | d0
    · simp [nodeProc, hap]
    · simp only [except_map_ok]
      rw [runSeg_listEvents ext cs ⟨n, d0, .pyNone⟩ (f :: st)
          (by simp only [List.length_cons]; omega)]
      rcases hlp : listProc ext n (d0, .pyNone) cs with er | dlc
      · simp [nodeProc, hap, hlp]
      · rcases hcr : closeResult dlc.1 dlc.2 with _ | r
        · have hend : step ext ⟨some ⟨n, dlc.1, dlc.2⟩, f :: st⟩ .endElement =
              .ok (.inl ⟨some f, st⟩) := by
            simp [step, hcr]
          simp [runSeg_cons, hend, nodeProc, hap, hlp, hcr, runSeg]
        · have hend : step ext ⟨some ⟨n, dlc.1, dlc.2⟩, f :: st⟩ .endElement =
              .ok (.inl ⟨some ⟨f.name, (mergeChild f.dict f.list n r).1,
                (mergeChild f.dict f.list n r).2⟩, st⟩) := by
            simp [step, hcr]
          simp [runSeg_cons, hend, nodeProc, hap, hlp, hcr, runSeg]
termination_by sizeOf t

theorem runSeg_listEvents (ext : Ext) (cs : List XNode) :
    ∀ (f : Frame) (st : List Frame), st.length + heightList cs ≤ STACK_SIZE →
    runSeg ext ⟨some f, st⟩ (listEvents cs) =
      (listProc ext f.name (f.dict, f.list) cs).map
        (fun dl => Sum.inl ⟨some ⟨f.name, dl.1, dl.2⟩, st⟩) := by
  intro f st hd
  cases cs with
  | nil =>
    simp [listEvents, runSeg, listProc]
  | cons c rest =>
    have hmax1 : heightN c ≤ heightList (c :: rest) := by
      rw [heightList]; exact Nat.le_max_left _ _
    have hmax2 : heightList rest ≤ heightList (c :: rest) := by
      rw [heightList]; exact Nat.le_max_right _ _
    rw [listEvents, runSeg_append_any,
      runSeg_nodeEvents ext c f st (by omega)]
    rcases hnp : nodeProc ext f.name (f.dict, f.list) c with er | dl1
    · simp [listProc, hnp]
    · simp only [except_map_ok]
      rw [runSeg_listEvents ext rest ⟨f.name, dl1.1, dl1.2⟩ st (by omega)]
      rcases hl2 : listProc ext f.name dl1 rest with er2 | dl2
      · simp [listProc, hnp, hl2]
      · simp [listProc, hnp, hl2]
termination_by sizeOf cs

end

/-! ## Merge-shape lemmas -/

theorem list_set_self {α : Type} (l : List α) :
    ∀ (i : Nat) (x : α), l.get? i = some x → l.set i x = l := by
  induction l with
  | nil => intro i x h; simp at h
  | cons a rest ih =>
    intro i x h
    cases i with
    | zero =>
      simp only [List.get?] at h
      cases h
      simp
    | succ j =>
      simp only [List.get?] at h
      simp [List.set, ih j x h]

theorem heightList_append (a b : List XNode) :
    heightList (a ++ b) = max (heightList a) (heightList b) := by
  induction a with
  | nil => simp [heightList]
  | cons c rest ih =>
    rw [List.cons_append, heightList, heightList, ih]
    omega

theorem noText_append (a b : List XNode) :
    noTextNode (a ++ b) = (noTextNode a && noTextNode b) := by
  simp [noTextNode, List.all_append]

theorem dictGet_single_ne (k x : String) (v : Value) (h : k ≠ x) :
    dictGet [(k, v)] x = none := by
  simp [dictGet, h]

theorem mergeChild_fresh (d0 : DSlot) (l : LSlot) (k : String) (r : Value)
    (hni : force_items_set.contains k = false)
    (hget : dictGet d0.entries k = none) :
    mergeChild d0 l k r =
      (.dict (d0.entries ++
        [(k, if force_list_set.contains k then Value.seq [r] else r)]), l) := by
  unfold mergeChild
  rw [hni, hget]
  simp [dictSet_fresh _ _ _ hget]

theorem mergeChild_seq (base : List (String × Value)) (l : LSlot) (k : String)
    (acc : List Value) (r : Value)
    (hni : force_items_set.contains k = false)
    (hbase : dictGet base k = none) :
    mergeChild (.dict (base ++ [(k, .seq acc)])) l k r =
      (.dict (base ++ [(k, .seq (acc ++ [r]))]), l) := by
  unfold mergeChild
  rw [show DSlot.entries (.dict (base ++ [(k, Value.seq acc)])) =
        base ++ [(k, Value.seq acc)] from rfl,
    dictGet_append_self base k _ hbase, hni]
  simp [dictSet_append_self base k _ _ hbase]

theorem mergeChild_upgrade (base : List (String × Value)) (l : LSlot)
    (k : String) (ex r : Value)
    (hni : force_items_set.contains k = false)
    (hbase : dictGet base k = none)
    (hnseq : ∀ l0, ex ≠ Value.seq l0) :
    mergeChild (.dict (base ++ [(k, ex)])) l k r =
      (.dict (base ++ [(k, .seq [ex, r])]), l) := by
  unfold mergeChild
  rw [show DSlot.entries (.dict (base ++ [(k, ex)])) = base ++ [(k, ex)] from rfl,
    dictGet_append_self base k ex hbase, hni]
  cases ex <;>
    first
    | exact absurd rfl (hnseq _)
    | simp [dictSet_append_self base k _ _ hbase]

theorem list_get_some_lt {α : Type} :
    ∀ (l : List α) (i : Nat) (x : α), l.get? i = some x → i < l.length := by
  intro l
  induction l with
  | nil => intro i x h; simp at h
  | cons a rest ih =>
    intro i x h
    cases i with
    | zero => simp
    | succ j =>
      simp only [List.get?] at h
      have := ih j x h
      simp
      omega

theorem list_set_get_self {α : Type} :
    ∀ (l : List α) (i : Nat) (a : α), i < l.length → (l.set i a).get? i = some a := by
  intro l
  induction l with
  | nil => intro i a h; simp at h
  | cons b rest ih =>
    intro i a h
    cases i with
    | zero => rfl
    | succ j =>
      simp only [List.length_cons] at h
      exact ih j a (by omega)

theorem list_set_set {α : Type} :
    ∀ (l : List α) (i : Nat) (a b : α), (l.set i a).set i b = l.set i b := by
  intro l
  induction l with
  | nil => intro i a b; rfl
  | cons c rest ih =>
    intro i a b
    cases i with
    | zero => rfl
    | succ j => simp [List.set, ih j a b]

theorem lsExtend_list (L : List Value) (r : List Value) :
    lsExtend (.list L) r = .list (L ++ r) := by
  cases r with
  | nil => simp [lsExtend]
  | cons a rest => simp [lsExtend, LSlot.items]

theorem dsExtend_dict (L : List (String × Value)) (r : List (String × Value)) :
    dsExtend (.dict L) r = .dict (L ++ r) := by
  cases r with
  | nil => simp [dsExtend]
  | cons a rest => simp [dsExtend, DSlot.entries]

theorem mergeChild_items (pdict : DSlot) (plist : LSlot) (cname : String)
    (r : Value) (hit : force_items_set.contains cname = true) :
    mergeChild pdict plist cname r =
      (pdict, .list (plist.items ++ [.tup cname r])) := by
  unfold mergeChild
  rw [hit]
  simp

theorem nodeProc_elem_ok (ext : Ext) (pname : String) (dd : DSlot) (ll : LSlot)
    (n : String) (attrs : List (String × String)) (cs : List XNode) (r : Value)
    (hres : elemRes ext (.elem n attrs cs) = .ok (some r)) :
    nodeProc ext pname (dd, ll) (.elem n attrs cs) = .ok (mergeChild dd ll n r) := by
  rw [nodeProc_elem, hres]

/-! ## Sibling-fold lemmas -/

theorem listProc_sibs_append (ext : Ext) (pname k : String)
    (hni : force_items_set.contains k = false) :
    ∀ (vs : List Value) (ns : List XNode), sibNodes ext k vs ns →
    ∀ (base : List (String × Value)) (acc : List Value) (l : LSlot),
      dictGet base k = none →
      listProc ext pname (.dict (base ++ [(k, .seq acc)]), l) ns =
        .ok (.dict (base ++ [(k, .seq (acc ++ vs))]), l) := by
  intro vs ns hsib
  induction hsib with
  | nil => intro base acc l hbase; simp [listProc]
  | cons hv hrest ih =>
    intro base acc l hbase
    obtain ⟨⟨attrs, cs, rfl⟩, hres⟩ := hv
    rw [listProc, nodeProc_elem_ok ext pname _ _ k attrs cs _ hres,
      mergeChild_seq base l k acc _ hni hbase]
    simp only [except_ok_bind]
    rw [ih base (acc ++ [_]) l hbase]
    simp

theorem listProc_sibs_flist (ext : Ext) (pname k : String)
    (hni : force_items_set.contains k = false)
    (hfl : force_list_set.contains k = true) :
    ∀ (v : Value) (vs : List Value) (nd : XNode) (ns : List XNode),
      sibNodes ext k (v :: vs) (nd :: ns) →
    ∀ (d0 : DSlot) (l : LSlot), dictGet d0.entries k = none →
      listProc ext pname (d0, l) (nd :: ns) =
        .ok (.dict (d0.entries ++ [(k, .seq (v :: vs))]), l) := by
  intro v vs nd ns hsib d0 l hget
  cases hsib with
  | cons hv hrest =>
    obtain ⟨⟨attrs, cs, rfl⟩, hres⟩ := hv
    rw [listProc, nodeProc_elem_ok ext pname _ _ k attrs cs _ hres,
      mergeChild_fresh d0 l k v hni hget, hfl]
    simp only [if_true, except_ok_bind]
    rw [listProc_sibs_append ext pname k hni vs ns hrest d0.entries [v] l hget]
    simp

theorem listProc_sibs_upgrade (ext : Ext) (pname k : String)
    (hni : force_items_set.contains k = false)
    (hfl : force_list_set.contains k = false) :
    ∀ (v1 v2 : Value) (vs : List Value) (nd1 nd2 : XNode) (ns : List XNode),
      sibNodes ext k (v1 :: v2 :: vs) (nd1 :: nd2 :: ns) →
      (∀ l0, v1 ≠ Value.seq l0) →
    ∀ (d0 : DSlot) (l : LSlot), dictGet d0.entries k = none →
      listProc ext pname (d0, l) (nd1 :: nd2 :: ns) =
        .ok (.dict (d0.entries ++ [(k, .seq (v1 :: v2 :: vs))]), l) := by
  intro v1 v2 vs nd1 nd2 ns hsib hnseq d0 l hget
  cases hsib with
  | cons hv1 hrest1 =>
    cases hrest1 with
    | cons hv2 hrest2 =>
      obtain ⟨⟨attrs1, cs1, rfl⟩, hres1⟩ := hv1
      obtain ⟨⟨attrs2, cs2, rfl⟩, hres2⟩ := hv2
      rw [listProc, nodeProc_elem_ok ext pname _ _ k attrs1 cs1 _ hres1,
        mergeChild_fresh d0 l k v1 hni hget, hfl]
      simp only [if_false, except_ok_bind, Bool.false_eq_true]
      rw [listProc, nodeProc_elem_ok ext pname _ _ k attrs2 cs2 _ hres2,
        mergeChild_upgrade d0.entries l k v1 v2 hni hget hnseq]
      simp only [except_ok_bind]
      rw [listProc_sibs_append ext pname k hni vs ns hrest2 d0.entries [v1, v2] l hget]
      simp

/-! ## The round-trip induction, layer by layer -/

theorem SB_of_SA (env : UEnv) (ext : Ext) (d : Nat) (hSA : SAprop env ext d) :
    SBprop env ext d := by
  intro items
  induction items with
  | nil =>
    intro _
    refine ⟨[], rfl, by simp [heightList], ?_, ?_⟩
    · intro key is_root size out0 i nm ats cs0 hget
      rw [unparse_seqItems, List.append_nil, list_set_self out0 i _ hget]
    · intro pname dl
      simp [listProc, lsExtend]
  | cons item rest ih =>
    intro hg
    cases item with
    | tup nn w =>
      simp only [goodTups, Bool.and_eq_true] at hg
      obtain ⟨⟨⟨hit, hname⟩, helem⟩, hrest⟩ := hg
      obtain ⟨attrs, cs, hunp, hht, hres⟩ := hSA nn w helem
      obtain ⟨ns, hnt, hh, hseq, hlp⟩ := ih hrest
      refine ⟨.elem nn attrs cs :: ns, ?_, ?_, ?_, ?_⟩
      · simp [noTextNode, isElemNode] at hnt ⊢
        exact hnt
      · rw [heightList, heightN]
        rw [heightN] at hht
        omega
      · intro key is_root size out0 i nm ats cs0 hget
        rw [unparse_seqItems]
        simp only [unparse_seqItem, unparse_seqTuple, hget]
        rw [unparse_item.eq_def]
        simp only [goodName_not_at nn hname, Bool.false_eq_true, if_false,
          if_neg (goodName_not_text nn hname), hunp false, except_ok_bind]
        have hbig := hseq key is_root size
          (out0.set i (.elem nm ats (cs0 ++ [.elem nn attrs cs]))) i nm ats
          (cs0 ++ [.elem nn attrs cs])
          (list_set_get_self out0 i (.elem nm ats (cs0 ++ [.elem nn attrs cs]))
            (list_get_some_lt out0 i (.elem nm ats cs0) hget))
        rw [hbig, list_set_set]
        simp
      · intro pname dl
        obtain ⟨dd, ll⟩ := dl
        rw [listProc, nodeProc_elem_ok ext pname dd ll nn attrs cs w hres,
          mergeChild_items dd ll nn w hit]
        simp only [except_ok_bind]
        rw [hlp]
        simp [lsExtend_list, lsExtend]
        cases rest <;> simp
    | str s => simp [goodTups] at hg
    | int n => simp [goodTups] at hg
    | float q => simp [goodTups] at hg
    | bool b => simp [goodTups] at hg
    | null => simp [goodTups] at hg
    | ts t => simp [goodTups] at hg
    | cdata c => simp [goodTups] at hg
    | map m => simp [goodTups] at hg
    | seq l => simp [goodTups] at hg

theorem ne_empty_of_not_ws (s : String) (h : isXmlWS s = false) : s ≠ "" := by
  intro he
  rw [he] at h
  exact absurd h (by decide)

theorem scalar_elem_node (env : UEnv) (ext : Ext) (k : String) (v : Value)
    (h : goodScalarForKey k v = true) :
    ∃ s, unparse_scalar env k v = .ok (.elem k [] [.xtext s]) ∧
      isXmlWS s = false ∧
      elemRes ext (.elem k [] [.xtext s]) = .ok (some v) := by
  obtain ⟨s, hts, hws, hpp⟩ := render_scalar_text env ext k v h
  have hs : s ≠ "" := ne_empty_of_not_ws s hws
  refine ⟨s, ?_, hws, ?_⟩
  · cases v with
    | cdata t => simp [goodScalarForKey] at h
    | str t =>
      rw [unparse_scalar.eq_def]
      simp [hts, addContent, hs]
    | int n =>
      rw [unparse_scalar.eq_def]
      simp [hts, addContent, hs]
    | bool b =>
      rw [unparse_scalar.eq_def]
      simp [hts, addContent, hs]
    | null => simp [goodScalarForKey] at h
    | float q => simp [goodScalarForKey] at h
    | ts t => simp [goodScalarForKey] at h
    | map m => simp [goodScalarForKey] at h
    | seq l => simp [goodScalarForKey] at h
    | tup a b => simp [goodScalarForKey] at h
  · rw [elemRes, attrsProc]
    simp only [except_ok_bind]
    rw [listProc, nodeProc, if_neg (by rw [hws]; exact Bool.false_ne_true),
      textStep, hpp]
    simp [listProc, dictSet, closeResult, DSlot.entries]

theorem unparse_element_map_inv (env : UEnv) (k : String)
    (mm : List (String × Value)) (r : Bool) (out : List XNode)
    (h : unparse_element env k (.map mm) r = .ok out) :
    ∃ nd, unparse_dict env k mm = .ok nd ∧ out = [nd] := by
  have h2 : (do
      let nd ← unparse_dict env k mm
      Except.ok [nd] : Except UErr (List XNode)) = .ok out := by
    rw [← h, unparse_element.eq_def]
  rcases hud : unparse_dict env k mm with e | nd
  · rw [hud] at h2
    simp at h2
  · rw [hud] at h2
    simp only [except_ok_bind] at h2
    cases h2
    exact ⟨nd, rfl, rfl⟩

theorem mapsSeq_nodes (env : UEnv) (ext : Ext) (d : Nat) (k : String)
    (hSA : SAprop env ext d) :
    ∀ items, goodMapsSeq d k items = true →
      ∃ ns, sibNodes ext k items ns ∧ noTextNode ns = true ∧
        heightList ns ≤ d ∧
        (∀ (size : Nat) (st : SeqBuild),
          unparse_seqItems env k false size st items =
            .ok ⟨st.out ++ ns, st.tupIdx⟩) := by
  intro items
  induction items with
  | nil =>
    intro _
    exact ⟨[], List.Forall₂.nil, rfl, by simp [heightList], by
      intro size st
      rw [unparse_seqItems]
      simp⟩
  | cons item rest ih =>
    intro hg
    cases item with
    | map mm =>
      simp only [goodMapsSeq, Bool.and_eq_true] at hg
      obtain ⟨helem, hrest⟩ := hg
      obtain ⟨attrs, cs, hunp, hht, hres⟩ := hSA k (.map mm) helem
      obtain ⟨nd, hud, hout⟩ := unparse_element_map_inv env k mm false _ (hunp false)
      have hnd : nd = XNode.elem k attrs cs := by
        cases hout
        rfl
      subst hnd
      obtain ⟨ns, hsib, hnt, hh, hseq⟩ := ih hrest
      refine ⟨.elem k attrs cs :: ns, ?_, ?_, ?_, ?_⟩
      · exact List.Forall₂.cons ⟨⟨attrs, cs, rfl⟩, hres⟩ hsib
      · simp [noTextNode, isElemNode] at hnt ⊢
        exact hnt
      · rw [heightList, heightN]
        rw [heightN] at hht
        omega
      · intro size st
        rw [unparse_seqItems]
        simp only [unparse_seqItem, Bool.false_eq_true, false_and, if_false,
          hud, except_ok_bind]
        rw [hseq size ⟨st.out ++ [XNode.elem k attrs cs], st.tupIdx⟩]
        simp
    | str s => simp [goodMapsSeq] at hg
    | int n => simp [goodMapsSeq] at hg
    | float q => simp [goodMapsSeq] at hg
    | bool b => simp [goodMapsSeq] at hg
    | null => simp [goodMapsSeq] at hg
    | ts t => simp [goodMapsSeq] at hg
    | cdata c => simp [goodMapsSeq] at hg
    | seq l => simp [goodMapsSeq] at hg
    | tup a b => simp [goodMapsSeq] at hg

theorem scalarsSeq_nodes (env : UEnv) (ext : Ext) (k : String) :
    ∀ items, goodScalarsSeq k items = true →
      ∃ ns, sibNodes ext k items ns ∧ noTextNode ns = true ∧
        heightList ns ≤ 1 ∧
        (∀ (size : Nat) (st : SeqBuild),
          unparse_seqItems env k false size st items =
            .ok ⟨st.out ++ ns, st.tupIdx⟩) := by
  intro items
  induction items with
  | nil =>
    intro _
    exact ⟨[], List.Forall₂.nil, rfl, by simp [heightList], by
      intro size st
      rw [unparse_seqItems]
      simp⟩
  | cons item rest ih =>
    intro hg
    simp only [goodScalarsSeq, Bool.and_eq_true] at hg
    obtain ⟨⟨hshape, hsc⟩, hrest⟩ := hg
    obtain ⟨s, hup, hws, hres⟩ := scalar_elem_node env ext k item hsc
    obtain ⟨ns, hsib, hnt, hh, hseq⟩ := ih hrest
    refine ⟨.elem k [] [.xtext s] :: ns, ?_, ?_, ?_, ?_⟩
    · exact List.Forall₂.cons ⟨⟨[], [.xtext s], rfl⟩, hres⟩ hsib
    · simp [noTextNode, isElemNode] at hnt ⊢
      exact hnt
    · rw [heightList, heightN]
      have hz : heightList [XNode.xtext s] = 0 := by
        simp [heightList, heightN]
      omega
    · intro size st
      rw [unparse_seqItems]
      cases item with
      | str t =>
        simp only [unparse_seqItem, Bool.false_eq_true, false_and, if_false,
          hup, except_ok_bind]
        rw [hseq size ⟨st.out ++ [XNode.elem k [] [XNode.xtext s]], st.tupIdx⟩]
        simp
      | int n =>
        simp only [unparse_seqItem, Bool.false_eq_true, false_and, if_false,
          hup, except_ok_bind]
        rw [hseq size ⟨st.out ++ [XNode.elem k [] [XNode.xtext s]], st.tupIdx⟩]
        simp
      | bool b =>
        simp only [unparse_seqItem, Bool.false_eq_true, false_and, if_false,
          hup, except_ok_bind]
        rw [hseq size ⟨st.out ++ [XNode.elem k [] [XNode.xtext s]], st.tupIdx⟩]
        simp
      | null => simp at hshape
      | float q => simp at hshape
      | ts t => simp at hshape
      | cdata c => simp at hshape
      | map m => simp at hshape
      | seq l => simp at hshape
      | tup a b => simp at hshape

theorem unparse_item_attr (env : UEnv) (eb : EBuild) (key : String) (v : Value)
    (s : String) (hat : firstCharIs '@' key = true)
    (hts : to_string env v = .ok s) :
    unparse_item env eb key v =
      .ok ⟨eb.attrs ++ [(dropFirstChar key, s)], eb.children⟩ := by
  rw [unparse_item.eq_def, if_pos hat, hts]
  rfl

theorem unparse_item_text (env : UEnv) (eb : EBuild) (v : Value) (s : String)
    (hnc : ∀ t, v ≠ Value.cdata t) (hts : to_string env v = .ok s) :
    unparse_item env eb "#text" v = .ok ⟨eb.attrs, addContent eb.children s⟩ := by
  rw [unparse_item.eq_def, if_neg (by decide), if_pos rfl]
  cases v <;>
    first
    | exact absurd rfl (hnc _)
    | (rw [hts]; rfl)

theorem unparse_item_child (env : UEnv) (eb : EBuild) (key : String) (v : Value)
    (ns : List XNode) (hat : firstCharIs '@' key = false) (htk : key ≠ "#text")
    (hun : unparse_element env key v false = .ok ns) :
    unparse_item env eb key v = .ok ⟨eb.attrs, eb.children ++ ns⟩ := by
  rw [unparse_item.eq_def, if_neg (by rw [hat]; exact Bool.false_ne_true),
    if_neg htk, hun]
  rfl

theorem goodEntries_cons (d : Nat) (ename : String) (b : Bool) (key : String)
    (v : Value) (rest : List (String × Value)) :
    goodEntries d ename b ((key, v) :: rest) =
      if firstCharIs '@' key then
        b && goodName (dropFirstChar key) &&
          goodAttrValForKey (dropFirstChar key) v && goodEntries d ename true rest
      else if key = "#text" then
        goodScalarForKey ename v && goodEntries d ename false rest
      else
        goodName key && !force_items_set.contains key && goodSlot d key v &&
          goodEntries d ename false rest := by
  rw [goodEntries.eq_def]

theorem SD_single (env : UEnv) (ext : Ext) (d : Nat) (k : String) (v : Value)
    (hSA : SAprop env ext d)
    (hni : force_items_set.contains k = false)
    (hfl : force_list_set.contains k = false)
    (helem : goodElem d k v = true) :
    ∃ ns, noTextNode ns = true ∧ heightList ns ≤ d ∧
      unparse_element env k v false = .ok ns ∧
      (∀ pname (d0 : DSlot) (l : LSlot), dictGet d0.entries k = none →
        listProc ext pname (d0, l) ns =
          .ok (.dict (d0.entries ++ [(k, v)]), l)) := by
  obtain ⟨attrs, cs, hunp, hht, hres⟩ := hSA k v helem
  refine ⟨[.elem k attrs cs], by simp [noTextNode, isElemNode], ?_, hunp false, ?_⟩
  · simp only [heightList]
    omega
  · intro pname d0 l hget
    rw [listProc, nodeProc_elem_ok ext pname d0 l k attrs cs v hres,
      mergeChild_fresh d0 l k v hni hget, hfl]
    simp only [Bool.false_eq_true, if_false, except_ok_bind]
    rw [listProc]

theorem SD_seq_common (env : UEnv) (ext : Ext) (d : Nat) (k : String)
    (items : List Value) (ns : List XNode)
    (hni : force_items_set.contains k = false)
    (hcond : (force_list_set.contains k || decide (items.length ≥ 2)) = true)
    (hne : items ≠ [])
    (hhead : ∀ v1 t, items = v1 :: t → ∀ l0, v1 ≠ Value.seq l0)
    (hsib : sibNodes ext k items ns)
    (hnt : noTextNode ns = true) (hh : heightList ns ≤ d)
    (hseqU : ∀ (size : Nat) (st : SeqBuild),
      unparse_seqItems env k false size st items =
        .ok ⟨st.out ++ ns, st.tupIdx⟩) :
    noTextNode ns = true ∧ heightList ns ≤ d ∧
      unparse_element env k (.seq items) false = .ok ns ∧
      (∀ pname (d0 : DSlot) (l : LSlot), dictGet d0.entries k = none →
        listProc ext pname (d0, l) ns =
          .ok (.dict (d0.entries ++ [(k, .seq items)]), l)) := by
  refine ⟨hnt, hh, ?_, ?_⟩
  · have he : unparse_element env k (Value.seq items) false =
        (do
          let st ← unparse_seqItems env k false items.length ⟨[], none⟩ items
          Except.ok st.out) := by
      rw [unparse_element.eq_def]
    rw [he, hseqU items.length ⟨[], none⟩]
    simp
  · intro pname d0 l hget
    cases items with
    | nil => exact absurd rfl hne
    | cons v1 t =>
      cases hsib with
      | cons hv hrest =>
        cases hflb : force_list_set.contains k with
        | true =>
          exact listProc_sibs_flist ext pname k hni hflb v1 t _ _
            (List.Forall₂.cons hv hrest) d0 l hget
        | false =>
          rw [hflb] at hcond
          simp only [Bool.false_or, decide_eq_true_eq] at hcond
          cases t with
          | nil => simp at hcond
          | cons v2 t2 =>
            cases hrest with
            | cons hv2 hrest2 =>
              exact listProc_sibs_upgrade ext pname k hni hflb v1 v2 t2 _ _ _
                (List.Forall₂.cons hv (List.Forall₂.cons hv2 hrest2))
                (hhead v1 (v2 :: t2) rfl) d0 l hget

theorem SD_of_SA (env : UEnv) (ext : Ext) (d : Nat) (hSA : SAprop env ext d) :
    SDprop env ext d := by
  intro k v hg hni
  cases d with
  | zero => exact absurd hg (by simp [goodSlot])
  | succ e =>
    cases v with
    | seq items =>
      cases items with
      | nil => simp [goodSlot] at hg
      | cons it0 irest =>
        cases it0 with
        | map mm =>
          simp only [goodSlot, Bool.and_eq_true] at hg
          obtain ⟨hne0, hcond, hmaps⟩ := hg
          obtain ⟨ns, hsib, hnt, hh, hseqU⟩ :=
            mapsSeq_nodes env ext (e + 1) k hSA (.map mm :: irest) hmaps
          obtain ⟨c1, c2, c3, c4⟩ :=
            SD_seq_common env ext (e + 1) k (.map mm :: irest) ns hni hcond
              (List.cons_ne_nil _ _)
              (by
                intro v1 t hEq l0
                injection hEq with h1 h2
                subst h1
                simp)
              hsib hnt hh hseqU
          exact ⟨ns, c1, c2, c3, c4⟩
        | tup a b =>
          simp only [goodSlot, Bool.and_eq_true, Bool.not_eq_true'] at hg
          obtain ⟨hne0, hfl, helem⟩ := hg
          exact SD_single env ext (e + 1) k (.seq (.tup a b :: irest)) hSA hni hfl helem
        | str s =>
          simp only [goodSlot, Bool.and_eq_true] at hg
          obtain ⟨hne0, hcond, hsc⟩ := hg
          obtain ⟨ns, hsib, hnt, hh, hseqU⟩ :=
            scalarsSeq_nodes env ext k (.str s :: irest) hsc
          obtain ⟨c1, c2, c3, c4⟩ :=
            SD_seq_common env ext (e + 1) k (.str s :: irest) ns hni hcond
              (List.cons_ne_nil _ _)
              (by
                intro v1 t hEq l0
                injection hEq with h1 h2
                subst h1
                simp)
              hsib hnt (le_trans hh (by omega)) hseqU
          exact ⟨ns, c1, c2, c3, c4⟩
        | int n =>
          simp only [goodSlot, Bool.and_eq_true] at hg
          obtain ⟨hne0, hcond, hsc⟩ := hg
          obtain ⟨ns, hsib, hnt, hh, hseqU⟩ :=
            scalarsSeq_nodes env ext k (.int n :: irest) hsc
          obtain ⟨c1, c2, c3, c4⟩ :=
            SD_seq_common env ext (e + 1) k (.int n :: irest) ns hni hcond
              (List.cons_ne_nil _ _)
              (by
                intro v1 t hEq l0
                injection hEq with h1 h2
                subst h1
                simp)
              hsib hnt (le_trans hh (by omega)) hseqU
          exact ⟨ns, c1, c2, c3, c4⟩
        | bool b =>
          simp only [goodSlot, Bool.and_eq_true] at hg
          obtain ⟨hne0, hcond, hsc⟩ := hg
          obtain ⟨ns, hsib, hnt, hh, hseqU⟩ :=
            scalarsSeq_nodes env ext k (.bool b :: irest) hsc
          obtain ⟨c1, c2, c3, c4⟩ :=
            SD_seq_common env ext (e + 1) k (.bool b :: irest) ns hni hcond
              (List.cons_ne_nil _ _)
              (by
                intro v1 t hEq l0
                injection hEq with h1 h2
                subst h1
                simp)
              hsib hnt (le_trans hh (by omega)) hseqU
          exact ⟨ns, c1, c2, c3, c4⟩
        | null => simp [goodSlot, goodScalarsSeq] at hg
        | float q => simp [goodSlot, goodScalarsSeq] at hg
        | ts t => simp [goodSlot, goodScalarsSeq] at hg
        | cdata c => simp [goodSlot, goodScalarsSeq] at hg
        | seq l2 => simp [goodSlot, goodScalarsSeq] at hg
    | map mm =>
      simp only [goodSlot, Bool.and_eq_true, Bool.not_eq_true'] at hg
      exact SD_single env ext (e + 1) k (.map mm) hSA hni hg.1 hg.2
    | str s =>
      simp only [goodSlot, Bool.and_eq_true, Bool.not_eq_true'] at hg
      exact SD_single env ext (e + 1) k (.str s) hSA hni hg.1 hg.2
    | int n =>
      simp only [goodSlot, Bool.and_eq_true, Bool.not_eq_true'] at hg
      exact SD_single env ext (e + 1) k (.int n) hSA hni hg.1 hg.2
    | bool b =>
      simp only [goodSlot, Bool.and_eq_true, Bool.not_eq_true'] at hg
      exact SD_single env ext (e + 1) k (.bool b) hSA hni hg.1 hg.2
    | null =>
      simp only [goodSlot, Bool.and_eq_true, Bool.not_eq_true'] at hg
      exact SD_single env ext (e + 1) k .null hSA hni hg.1 hg.2
    | float q =>
      simp only [goodSlot, Bool.and_eq_true, Bool.not_eq_true'] at hg
      exact SD_single env ext (e + 1) k (.float q) hSA hni hg.1 hg.2
    | ts t =>
      simp only [goodSlot, Bool.and_eq_true, Bool.not_eq_true'] at hg
      exact SD_single env ext (e + 1) k (.ts t) hSA hni hg.1 hg.2
    | cdata c =>
      simp only [goodSlot, Bool.and_eq_true, Bool.not_eq_true'] at hg
      exact SD_single env ext (e + 1) k (.cdata c) hSA hni hg.1 hg.2
    | tup a b =>
      simp only [goodSlot, Bool.and_eq_true, Bool.not_eq_true'] at hg
      exact SD_single env ext (e + 1) k (.tup a b) hSA hni hg.1 hg.2

set_option maxHeartbeats 1000000 in
theorem SC_of_SD (env : UEnv) (ext : Ext) (d : Nat) (hSD : SDprop env ext d) :
    SCprop env ext d := by
  intro ename b m
  induction m generalizing b with
  | nil =>
    intro _ _
    refine ⟨[], [], fun _ => rfl, by simp [heightList], ?_, ?_⟩
    · intro ats0 cs0 _
      rw [unparse_dictItems]
      simp
    · intro d0 _
      refine ⟨d0, rfl, ?_⟩
      rw [listProc]
      simp [dsExtend]
  | cons entry rest ih =>
    obtain ⟨key, v⟩ := entry
    intro hg hnd
    simp only [nodupKeysB, Bool.and_eq_true, Bool.not_eq_true'] at hnd
    obtain ⟨hnone, hndrest⟩ := hnd
    have hkne : ∀ p ∈ rest, p.1 ≠ key := by
      intro p hp he
      have h2 : rest.any (fun p => decide (p.1 = key)) = true :=
        List.any_eq_true.mpr ⟨p, hp, decide_eq_true he⟩
      rw [hnone] at h2
      cases h2
    by_cases hat : firstCharIs '@' key = true
    · -- attribute entry
      rw [goodEntries_cons, if_pos hat] at hg
      simp only [Bool.and_eq_true] at hg
      obtain ⟨⟨⟨hb, hnm⟩, hav⟩, hgrest⟩ := hg
      obtain ⟨s, hts, hpp⟩ := render_scalar_attr env ext (dropFirstChar key) v hav
      obtain ⟨atts', ns', hbf', hh', hU', hP'⟩ := ih true hgrest hndrest
      refine ⟨(dropFirstChar key, s) :: atts', ns', ?_, hh', ?_, ?_⟩
      · intro hbf
        rw [hbf] at hb
        cases hb
      · intro ats0 cs0 htext
        rw [unparse_dictItems,
          unparse_item_attr env ⟨ats0, cs0⟩ key v s hat hts]
        simp only [except_ok_bind]
        rw [hU' (ats0 ++ [(dropFirstChar key, s)]) cs0
          (fun hmem => htext (List.mem_cons_of_mem key hmem))]
        simp
      · intro d0 hdisj
        have hfresh : dictGet d0.entries key = none := hdisj (key, v) (by simp)
        have hkey : "@" ++ dropFirstChar key = key := (at_key_decomp key hat).symm
        have hdisj' : ∀ p ∈ rest,
            dictGet (DSlot.entries (.dict (d0.entries ++ [(key, v)]))) p.1 = none := by
          intro p hp
          show dictGet (d0.entries ++ [(key, v)]) p.1 = none
          exact dictGet_append_none _ _ _ (hdisj p (by simp [hp]))
            (dictGet_single_ne key p.1 v (fun he => hkne p hp he.symm))
        obtain ⟨d1, hA, hL⟩ := hP' (.dict (d0.entries ++ [(key, v)])) hdisj'
        refine ⟨d1, ?_, ?_⟩
        · rw [attrsProc, hpp]
          show attrsProc ext
            (.dict (dictSet d0.entries ("@" ++ dropFirstChar key) v)) atts' =
            .ok d1
          rw [hkey, dictSet_fresh _ _ _ hfresh]
          exact hA
        · rw [hL, dsExtend_dict]
          simp [dsExtend]
    · by_cases htk : key = "#text"
      · -- text entry
        subst htk
        rw [goodEntries_cons, if_neg hat, if_pos rfl] at hg
        simp only [Bool.and_eq_true] at hg
        obtain ⟨hsc, hgrest⟩ := hg
        obtain ⟨s, hts, hws, hpp⟩ := render_scalar_text env ext ename v hsc
        have hnc : ∀ t, v ≠ Value.cdata t := by
          intro t ht
          rw [ht] at hsc
          simp [goodScalarForKey] at hsc
        have hsne : s ≠ "" := ne_empty_of_not_ws s hws
        obtain ⟨atts', ns', hbf', hh', hU', hP'⟩ := ih false hgrest hndrest
        have ha0 : atts' = [] := hbf' rfl
        subst ha0
        refine ⟨[], .xtext s :: ns', fun _ => rfl, ?_, ?_, ?_⟩
        · simp only [heightList, heightN]
          omega
        · intro ats0 cs0 htext
          have hcs0 : noTextNode cs0 = true := htext (by simp)
          rw [unparse_dictItems, unparse_item_text env ⟨ats0, cs0⟩ v s hnc hts]
          simp only [except_ok_bind]
          rw [show addContent (EBuild.children ⟨ats0, cs0⟩) s =
              cs0 ++ [XNode.xtext s] from addContent_noText cs0 s hcs0 hsne]
          rw [hU' ats0 (cs0 ++ [XNode.xtext s]) (fun hmem => by
            obtain ⟨p, hp, hp1⟩ := List.mem_map.mp hmem
            exact absurd hp1 (hkne p hp))]
          simp
        · intro d0 hdisj
          have hfresh : dictGet d0.entries "#text" = none := hdisj ("#text", v) (by simp)
          have hdisj' : ∀ p ∈ rest,
              dictGet (DSlot.entries (.dict (d0.entries ++ [("#text", v)]))) p.1 = none := by
            intro p hp
            show dictGet (d0.entries ++ [("#text", v)]) p.1 = none
            exact dictGet_append_none _ _ _ (hdisj p (by simp [hp]))
              (dictGet_single_ne "#text" p.1 v (fun he => hkne p hp he.symm))
          obtain ⟨d1, hA, hL⟩ := hP' (.dict (d0.entries ++ [("#text", v)])) hdisj'
          rw [attrsProc] at hA
          cases hA
          refine ⟨d0, by rw [attrsProc], ?_⟩
          rw [listProc, nodeProc, if_neg (by rw [hws]; exact Bool.false_ne_true),
            textStep, hpp]
          simp only [except_ok_bind]
          rw [show dictSet (DSlot.entries (d0, LSlot.pyNone).1) "#text" v =
              d0.entries ++ [("#text", v)] from dictSet_fresh _ _ _ hfresh]
          rw [hL, dsExtend_dict]
          simp [dsExtend]
      · -- child entry
        rw [goodEntries_cons, if_neg hat, if_neg htk] at hg
        simp only [Bool.and_eq_true, Bool.not_eq_true'] at hg
        obtain ⟨⟨⟨hnm, hni⟩, hslot⟩, hgrest⟩ := hg
        obtain ⟨nsk, hntk, hhk, hUk, hPk⟩ := hSD key v hslot hni
        obtain ⟨atts', ns', hbf', hh', hU', hP'⟩ := ih false hgrest hndrest
        have ha0 : atts' = [] := hbf' rfl
        subst ha0
        have hatf : firstCharIs '@' key = false := by
          cases hq : firstCharIs '@' key
          · rfl
          · exact absurd hq hat
        refine ⟨[], nsk ++ ns', fun _ => rfl, ?_, ?_, ?_⟩
        · rw [heightList_append]
          omega
        · intro ats0 cs0 htext
          rw [unparse_dictItems,
            unparse_item_child env ⟨ats0, cs0⟩ key v nsk hatf htk hUk]
          simp only [except_ok_bind]
          rw [hU' ats0 (cs0 ++ nsk) (fun hmem => by
            rw [noText_append, htext (List.mem_cons_of_mem key hmem), hntk]
            rfl)]
          simp
        · intro d0 hdisj
          have hfresh : dictGet d0.entries key = none := hdisj (key, v) (by simp)
          have hdisj' : ∀ p ∈ rest,
              dictGet (DSlot.entries (.dict (d0.entries ++ [(key, v)]))) p.1 = none := by
            intro p hp
            show dictGet (d0.entries ++ [(key, v)]) p.1 = none
            exact dictGet_append_none _ _ _ (hdisj p (by simp [hp]))
              (dictGet_single_ne key p.1 v (fun he => hkne p hp he.symm))
          obtain ⟨d1, hA, hL⟩ := hP' (.dict (d0.entries ++ [(key, v)])) hdisj'
          rw [attrsProc] at hA
          cases hA
          refine ⟨d0, by rw [attrsProc], ?_⟩
          rw [listProc_append, hPk ename d0 LSlot.pyNone hfresh]
          show listProc ext ename
              (DSlot.dict (d0.entries ++ [(key, v)]), LSlot.pyNone) ns' =
            Except.ok (dsExtend d0 ((key, v) :: rest), LSlot.pyNone)
          rw [hL, dsExtend_dict]
          simp [dsExtend]

theorem closeResult_map_not_text (m : List (String × Value))
    (h : isSingleTextMap m = false) :
    closeResult (.dict m) .pyNone = some (.map m) := by
  cases m with
  | nil => rfl
  | cons p r =>
    cases r with
    | nil =>
      obtain ⟨k0, v0⟩ := p
      simp only [isSingleTextMap, decide_eq_false_iff_not] at h
      simp [closeResult, h]
    | cons q r2 => rfl

set_option maxHeartbeats 1000000 in
theorem SA_succ (env : UEnv) (ext : Ext) (d : Nat)
    (hSA : SAprop env ext d) (hSB : SBprop env ext d) (hSC : SCprop env ext d) :
    SAprop env ext (d + 1) := by
  intro k v hg
  cases v with
  | map m =>
    simp only [goodElem, Bool.and_eq_true, Bool.not_eq_true'] at hg
    obtain ⟨⟨⟨hne, hnd⟩, hnst⟩, hge⟩ := hg
    obtain ⟨atts, ns, hbf, hh, hU, hP⟩ := hSC k true m hge hnd
    obtain ⟨d1, hA, hL⟩ := hP .pyNone (fun p _ => rfl)
    have hds : dsExtend DSlot.pyNone m = .dict m := by
      cases m with
      | nil => simp at hne
      | cons a r => simp [dsExtend, DSlot.entries]
    refine ⟨atts, ns, ?_, ?_, ?_⟩
    · intro is_root
      have he : unparse_element env k (Value.map m) is_root = (do
          let nd ← unparse_dict env k m
          Except.ok [nd]) := by rw [unparse_element.eq_def]
      have hdct : unparse_dict env k m = (do
          let eb ← unparse_dictItems env ⟨[], []⟩ m
          Except.ok (.elem k eb.attrs eb.children)) := by rw [unparse_dict.eq_def]
      rw [he, hdct, hU [] [] (fun _ => rfl)]
      simp
    · rw [heightN]
      omega
    · rw [elemRes, hA]
      simp only [except_ok_bind]
      rw [hds] at hL
      rw [hL]
      simp [closeResult_map_not_text m hnst]
  | seq items =>
    simp only [goodElem, Bool.and_eq_true] at hg
    obtain ⟨hne, htups⟩ := hg
    cases items with
    | nil => simp at hne
    | cons t1 trest =>
      cases t1 with
      | tup nn w =>
        simp only [goodTups, Bool.and_eq_true] at htups
        obtain ⟨⟨⟨hit, hname⟩, helem⟩, hrest⟩ := htups
        obtain ⟨attrs1, cs1, hunp1, hht1, hres1⟩ := hSA nn w helem
        obtain ⟨nsr, hntr, hhr, hseqr, hlpr⟩ := hSB trest hrest
        refine ⟨[], .elem nn attrs1 cs1 :: nsr, ?_, ?_, ?_⟩
        · intro is_root
          have he : unparse_element env k
              (Value.seq (Value.tup nn w :: trest)) is_root = (do
              let st ← unparse_seqItems env k is_root
                (Value.tup nn w :: trest).length ⟨[], none⟩
                (Value.tup nn w :: trest)
              Except.ok st.out) := by rw [unparse_element.eq_def]
          rw [he, unparse_seqItems]
          simp only [unparse_seqItem, unparse_seqTuple]
          simp only [List.get?]
          rw [unparse_item_child env ⟨[], []⟩ nn w [.elem nn attrs1 cs1]
            (goodName_not_at nn hname) (goodName_not_text nn hname) (hunp1 false)]
          simp only [except_ok_bind, List.set, List.nil_append, List.length_nil]
          rw [hseqr k is_root (Value.tup nn w :: trest).length
            [XNode.elem k [] [XNode.elem nn attrs1 cs1]] 0 k []
            [XNode.elem nn attrs1 cs1] rfl]
          simp only [List.set]
          rfl
        · rw [heightN, heightList]
          omega
        · rw [elemRes, attrsProc]
          simp only [except_ok_bind]
          rw [listProc,
            nodeProc_elem_ok ext k DSlot.pyNone LSlot.pyNone nn attrs1 cs1 w hres1,
            mergeChild_items _ _ nn w hit]
          simp only [except_ok_bind]
          rw [hlpr]
          simp [lsExtend_list, closeResult, LSlot.items]
      | str s => simp [goodTups] at htups
      | int n => simp [goodTups] at htups
      | float q => simp [goodTups] at htups
      | bool b => simp [goodTups] at htups
      | null => simp [goodTups] at htups
      | ts t => simp [goodTups] at htups
      | cdata c => simp [goodTups] at htups
      | map m2 => simp [goodTups] at htups
      | seq l2 => simp [goodTups] at htups
  | str s =>
    simp only [goodElem] at hg
    obtain ⟨t, hup, hws, hres⟩ := scalar_elem_node env ext k (.str s) hg
    refine ⟨[], [.xtext t], ?_, ?_, hres⟩
    · intro is_root
      have he : unparse_element env k (Value.str s) is_root = (do
          let nd ← unparse_scalar env k (Value.str s)
          Except.ok [nd]) := by rw [unparse_element.eq_def]
      rw [he, hup]
      rfl
    · simp only [heightN, heightList]
      omega
  | int n =>
    simp only [goodElem] at hg
    obtain ⟨t, hup, hws, hres⟩ := scalar_elem_node env ext k (.int n) hg
    refine ⟨[], [.xtext t], ?_, ?_, hres⟩
    · intro is_root
      have he : unparse_element env k (Value.int n) is_root = (do
          let nd ← unparse_scalar env k (Value.int n)
          Except.ok [nd]) := by rw [unparse_element.eq_def]
      rw [he, hup]
      rfl
    · simp only [heightN, heightList]
      omega
  | bool b =>
    simp only [goodElem] at hg
    obtain ⟨t, hup, hws, hres⟩ := scalar_elem_node env ext k (.bool b) hg
    refine ⟨[], [.xtext t], ?_, ?_, hres⟩
    · intro is_root
      have he : unparse_element env k (Value.bool b) is_root = (do
          let nd ← unparse_scalar env k (Value.bool b)
          Except.ok [nd]) := by rw [unparse_element.eq_def]
      rw [he, hup]
      rfl
    · simp only [heightN, heightList]
      omega
  | null => simp [goodElem, goodScalarForKey] at hg
  | float q => simp [goodElem, goodScalarForKey] at hg
  | ts t => simp [goodElem, goodScalarForKey] at hg
  | cdata c => simp [goodElem, goodScalarForKey] at hg
  | tup a b => simp [goodElem, goodScalarForKey] at hg

theorem good_master (env : UEnv) (ext : Ext) : ∀ d, SAprop env ext d := by
  intro d
  induction d with
  | zero =>
    intro k v hg
    simp [goodElem] at hg
  | succ e ih =>
    exact SA_succ env ext e ih (SB_of_SA env ext e ih)
      (SC_of_SD env ext e (SD_of_SA env ext e ih))

theorem xml_parse_rootElem (ext : Ext) (n : String)
    (attrs : List (String × String)) (cs : List XNode)
    (hh : heightList cs ≤ STACK_SIZE) :
    xml_parse ext (nodeEvents (.elem n attrs cs)) =
      match elemRes ext (.elem n attrs cs) with
      | .error e => .error e
      | .ok none => .error .nullRootValue
      | .ok (some r) => .ok (.map [(n, r)]) := by
  have hstep : step ext ⟨none, []⟩ (.elementOpen n) =
      .ok (.inl ⟨some ⟨n, .pyNone, .pyNone⟩, []⟩) := by
    simp [step]
  rw [xml_parse, runFrom, nodeEvents, runSeg_append_any, runSeg_append_any,
    runSeg_cons, hstep]
  simp only []
  rw [runSeg_attrEvents]
  rcases hap : attrsProc ext .pyNone attrs with er | d0
  · simp [elemRes, hap]
  · simp only [except_map_ok]
    rw [runSeg_listEvents ext cs ⟨n, d0, .pyNone⟩ []
      (by simp only [List.length_nil]; omega)]
    rcases hlp : listProc ext n (d0, .pyNone) cs with er | dlc
    · simp [elemRes, hap, hlp]
    · simp only [except_map_ok]
      rcases hcr : closeResult dlc.1 dlc.2 with _ | r
      · have hend : step ext ⟨some ⟨n, dlc.1, dlc.2⟩, []⟩ .endElement =
            .error .nullRootValue := by
          simp [step, hcr]
        simp [runSeg_cons, hend, elemRes, hap, hlp, hcr, runSeg]
      · have hend : step ext ⟨some ⟨n, dlc.1, dlc.2⟩, []⟩ .endElement =
            .ok (.inr (.map [(n, r)])) := by
          simp [step, hcr]
        simp [runSeg_cons, hend, elemRes, hap, hlp, hcr, runSeg]

/-! ## Claim theorems -/

/-- C4: on element-close with the list slot `Null` and the dict slot a
`Map`, the element's result is the bare scalar of a single-`#text` map and
the map itself in every other shape — both as the `current_result`
computation states it and end-to-end at the root, where the result is
wrapped under the root name. -/
theorem claim_C4 (ext : Ext) (n : String) (m : List (String × Value)) :
    closeResult (.dict m) .pyNone = some (spec_close_map_only m) ∧
    step ext ⟨some ⟨n, .dict m, .pyNone⟩, []⟩ .endElement =
      .ok (.inr (.map [(n, spec_close_map_only m)])) := by
  have h : closeResult (.dict m) .pyNone = some (spec_close_map_only m) := by
    match m with
    | [] => simp [closeResult, spec_close_map_only]
    | [(k, v)] =>
      by_cases hk : k = "#text" <;>
        simp [closeResult, spec_close_map_only, hk]
    | (k1, v1) :: (k2, v2) :: rest =>
      simp [closeResult, spec_close_map_only]
  exact ⟨h, by simp [step, h]⟩

/-- C7: on element-close with both a `Map` dict and a `Seq` list, every
`(key, value)` pair of the map is appended to the end of the list in
insertion order (as a two-element tuple, which is what `PyDict_Items`
yields), and the element's result is that list — again both at the
`current_result` computation and end-to-end at the root. -/
theorem claim_C7 (ext : Ext) (n : String) (m : List (String × Value)) (l : List Value) :
    closeResult (.dict m) (.list l) = some (spec_close_map_list m l) ∧
    step ext ⟨some ⟨n, .dict m, .list l⟩, []⟩ .endElement =
      .ok (.inr (.map [(n, spec_close_map_list m l)])) := by
  have h : closeResult (.dict m) (.list l) = some (spec_close_map_list m l) := by
    simp [closeResult, spec_close_map_list]
  exact ⟨h, by simp [step, h]⟩

/-- C3: when a closing child's name is in `force_items` and its result is
non-absent, the parent's list slot (an empty list if it was `Null`)
receives the tuple `(childName, childResult)` appended at the end, and the
parent's dict slot is left untouched (the child is never stored under its
name in the parent's map). -/
theorem claim_C3 (ext : Ext) (f p : Frame) (rest : List Frame) (r : Value)
    (hfi : force_items_set.contains f.name = true)
    (hr : closeResult f.dict f.list = some r) :
    step ext ⟨some f, p :: rest⟩ .endElement =
      .ok (.inl ⟨some ⟨p.name, p.dict, .list (p.list.items ++ [.tup f.name r])⟩,
        rest⟩) := by
  have hmem : f.name ∈ force_items_set := by simpa using hfi
  simp [step, hr, mergeChild, hmem]

theorem claim_C3_witness :
    step extTriv ⟨some ⟨"node", .dict [("@id", .int 1)], .pyNone⟩,
        [⟨"create", .pyNone, .pyNone⟩]⟩ .endElement =
      .ok (.inl ⟨some ⟨"create", .pyNone, .list [.tup "node" (.map [("@id", .int 1)])]⟩,
        []⟩) :=
  claim_C3 extTriv ⟨"node", .dict [("@id", .int 1)], .pyNone⟩
    ⟨"create", .pyNone, .pyNone⟩ [] (.map [("@id", .int 1)]) (by decide) rfl

/-- C10: the code does not return `⟨"osm" ↦ empty map⟩` on `<osm/>` — the
root close has a NULL `current_result` and the code passes it straight to
`PyDict_SetItem`, violating that function's contract (modelled as the
`nullRootValue` outcome). -/
theorem claim_C10 :
    xml_parse extTriv [.elementOpen "osm", .endElement] = .error .nullRootValue := rfl

/-- C5 counterexample: `id` is a coercion-table key of integer type and
`"abc"` is not a rendering of any integer, yet the parse of
`<osm id="abc"/>` succeeds and stores `0` — `strtoll` converts the empty
digit run to `0` without setting `errno`, so the coercer does not fail. -/
theorem claim_C5_counterexample :
    postLookup "id" = some .pint ∧
    xml_parse extTriv [.elementOpen "osm", .attribute "id" "abc", .endElement] =
      .ok (.map [("osm", .map [("@id", .int 0)])]) :=
  ⟨rfl, rfl⟩

/-- C5 amended: the failure guarantee holds for the boolean scalarizer —
any raw other than `"true"`/`"false"` under a boolean key fails the whole
parse with an error naming the key and the raw bytes, whether the value
arrives as an attribute or as text; the integer scalarizer fails exactly
when `strtoll` reports a range error (never for merely non-numeric input);
and whenever coercion succeeds, the stored value carries the declared
scalar variant of its key. -/
theorem claim_C5 (ext : Ext) (k raw : String) :
    (postLookup k = some .pbool → raw ≠ "true" → raw ≠ "false" →
      ∀ (d : DSlot) (l : LSlot) (st : List Frame) (rest : List Event),
        runFrom ext ⟨some ⟨k, d, l⟩, st⟩ (.attribute k raw :: rest) =
          .error (.badValue k raw) ∧
        runFrom ext ⟨some ⟨k, d, l⟩, st⟩ (.text raw :: rest) =
          .error (.badValue k raw)) ∧
    ((postprocess_xml_int raw).isSome = true ↔ (strtoll10 raw).2 = false) ∧
    (∀ v, postprocess_value ext k raw = some v → variantOK k v) := by
  refine ⟨?_, ?_, ?_⟩
  · intro hb h1 h2 d l st rest
    have hpv : postprocess_value ext k raw = none := by
      simp [postprocess_value, hb, postprocess_xml_bool, h1, h2]
    constructor <;> simp [runFrom, runSeg, step, hpv]
  · unfold postprocess_xml_int
    rcases h : strtoll10 raw with ⟨v, e⟩
    cases e <;> simp
  · intro v hv
    unfold postprocess_value at hv
    unfold variantOK
    rcases hpk : postLookup k with _ | pk
    · rw [hpk] at hv
      simp only [postprocess_xml_str, Option.some.injEq] at hv
      exact ⟨raw, hv.symm⟩
    · rw [hpk] at hv
      cases pk with
      | pint =>
        unfold postprocess_xml_int at hv
        rcases h : strtoll10 raw with ⟨n, e⟩
        rw [h] at hv
        cases e
        · simp at hv
          exact ⟨n, hv.symm⟩
        · simp at hv
      | pfloat =>
        unfold postprocess_xml_float at hv
        rcases h : ext.strtod raw with _ | q
        · rw [h] at hv; simp at hv
        · rw [h] at hv
          simp only [Option.map_some', Option.some.injEq] at hv
          exact ⟨q, hv.symm⟩
      | pbool =>
        unfold postprocess_xml_bool at hv
        by_cases h1 : raw = "true"
        · simp [h1] at hv; exact ⟨true, hv.symm⟩
        · by_cases h2 : raw = "false"
          · simp [h1, h2] at hv; exact ⟨false, hv.symm⟩
          · simp [h1, h2] at hv
      | pdate =>
        unfold postprocess_xml_date at hv
        rcases h : (if raw.contains ' ' then ext.parse_date else ext.fromisoformat) raw
          with _ | t
        · rw [h] at hv; simp at hv
        · rw [h] at hv
          simp only [Option.map_some', Option.some.injEq] at hv
          exact ⟨t, hv.symm⟩
      | pversion =>
        unfold postprocess_xml_version at hv
        by_cases hc : raw.contains '.'
        · rw [if_pos hc] at hv
          unfold postprocess_xml_float at hv
          rcases h : ext.strtod raw with _ | q
          · rw [h] at hv; simp at hv
          · rw [h] at hv
            simp only [Option.map_some', Option.some.injEq] at hv
            exact Or.inr ⟨q, hv.symm⟩
        · rw [if_neg hc] at hv
          unfold postprocess_xml_int at hv
          rcases h : strtoll10 raw with ⟨n, e⟩
          rw [h] at hv
          cases e
          · simp at hv
            exact Or.inl ⟨n, hv.symm⟩
          · simp at hv

theorem claim_C5_witness :
    runFrom extTriv ⟨some ⟨"visible", .pyNone, .pyNone⟩, []⟩
      [.attribute "visible" "maybe"] = .error (.badValue "visible" "maybe") :=
  ((claim_C5 extTriv "visible" "maybe").1 rfl (by decide) (by decide)
    .pyNone .pyNone [] []).1

/-- C9 counterexample: a naive timestamp (its `tzinfo` is `Py_None`, not
UTC) is accepted by `to_string` and rendered with a `Z` suffix instead of
failing with `NonUTCTimestamp` — the code rejects only timezones that are
neither `Py_None` nor UTC. -/
theorem claim_C9_counterexample :
    (Timestamp.mk 2020 1 2 3 4 5 0 .tzNone).tz ≠ .utc ∧
    to_string envTriv (.ts (Timestamp.mk 2020 1 2 3 4 5 0 .tzNone)) =
      .ok "2020-01-02T03:04:05Z" :=
  ⟨by decide, rfl⟩

/-- C9 amended: every timestamp whose `tzinfo` is UTC or absent is written
as `YYYY-MM-DDThh:mm:ssZ` when its microsecond field is zero and as
`YYYY-MM-DDThh:mm:ss.ssssssZ` otherwise; unparse fails with
`NonUTCTimestamp` exactly for the timestamps whose `tzinfo` is some other
timezone. -/
theorem claim_C9 (env : UEnv) (t : Timestamp) :
    ((t.tz = .utc ∨ t.tz = .tzNone) →
      to_string env (.ts t) = .ok (spec_timestamp_text t)) ∧
    (∀ s, t.tz = .other s →
      to_string env (.ts t) = .error (.nonUTCTimestamp (.other s))) := by
  constructor
  · intro htz
    have hcond : t.tz = .tzNone ∨ t.tz = .utc := htz.symm
    have hfmt : formatTimestamp t = spec_timestamp_text t := by
      unfold formatTimestamp spec_timestamp_text
      by_cases hus : t.microsecond = 0
      · simp only [hus, if_true, ite_true, String.append_empty]
      · simp only [hus, if_false, ite_false, String.append_assoc]
    simp [to_string, hcond, hfmt]
  · intro s hs
    simp [to_string, hs]

theorem claim_C9_witness :
    to_string envTriv (.ts (Timestamp.mk 2021 12 31 23 59 58 250000 .utc)) =
      .ok "2021-12-31T23:59:58.250000Z" := by
  have h := (claim_C9 envTriv (Timestamp.mk 2021 12 31 23 59 58 250000 .utc)).1
    (Or.inl rfl)
  rw [h]
  rfl

/-- C2 counterexample: in `<root><c><node id="1"/></c></root>` the child
`c` occurs exactly once, is not in `force_list`, and no slot upgrade ever
happens — yet `root`'s map holds a `Seq` under `"c"`, because the single
child's own result was already a `Seq` (its `node` child is in
`force_items`). -/
theorem claim_C2_counterexample :
    xml_parse extTriv [.elementOpen "root", .elementOpen "c", .elementOpen "node",
        .attribute "id" "1", .endElement, .endElement, .endElement] =
      .ok (.map [("root", .map [("c", .seq [.tup "node" (.map [("@id", .int 1)])])])]) ∧
    List.count (Event.elementOpen "c") [Event.elementOpen "root", .elementOpen "c",
        .elementOpen "node", .attribute "id" "1", .endElement, .endElement,
        .endElement] = 1 ∧
    force_list_set.contains "c" = false :=
  ⟨rfl, by decide, by decide⟩

/-- C2 amended: after merging a non-items child `cname` with result `r`
into its parent, the parent map's entry at `cname` exists and is a `Seq`
exactly when `cname ∈ force_list`, or the slot was already occupied (the
second-child upgrade/append), or the child's own result was itself a
`Seq`; otherwise it is the single stored value. -/
theorem claim_C2 (d : DSlot) (l : LSlot) (cname : String) (r : Value)
    (hni : force_items_set.contains cname = false) :
    (dictGet (mergeChild d l cname r).1.entries cname).isSome = true ∧
    ((∃ items, dictGet (mergeChild d l cname r).1.entries cname =
        some (.seq items)) ↔
      (force_list_set.contains cname = true ∨
       (dictGet d.entries cname).isSome = true ∨
       ∃ items0, r = .seq items0)) := by
  have hmem : cname ∉ force_items_set := by simpa using hni
  rcases hex : dictGet d.entries cname with _ | ex
  · by_cases hfl : force_list_set.contains cname = true
    · have hf : cname ∈ force_list_set := by simpa using hfl
      constructor <;> simp [mergeChild, hmem, hex, hf, hfl, dictGet_dictSet_self]
    · have hf : cname ∉ force_list_set := by simpa using hfl
      constructor <;> simp [mergeChild, hmem, hex, hf, hfl, dictGet_dictSet_self]
  · cases ex <;>
      simp [mergeChild, hmem, hex, dictGet_dictSet_self]

theorem claim_C2_witness :
    (dictGet (mergeChild .pyNone .pyNone "x" (.str "v")).1.entries "x").isSome
      = true :=
  (claim_C2 .pyNone .pyNone "x" (.str "v") (by decide)).1

/-- C6: the machine never holds more than `STACK_SIZE = 10` saved parent
frames, and from any reachable state already holding 10 frames inside an
element, the next element-open makes the whole parse fail with the
nesting-depth error (no partial result: the outcome is the error, not a
value). -/
theorem claim_C6 (ext : Ext) (evs : List Event) (s : PState)
    (h : runSeg ext ⟨none, []⟩ evs = .ok (.inl s)) :
    s.stack.length ≤ STACK_SIZE ∧
    (∀ f, s.cur = some f → s.stack.length = STACK_SIZE →
      ∀ e rest, xml_parse ext (evs ++ .elementOpen e :: rest) =
        .error .nestingTooDeep) := by
  refine ⟨runSeg_stack_le ext evs ⟨none, []⟩ s h (by simp), ?_⟩
  intro f hf hlen e rest
  rw [xml_parse, runFrom_append_inl ext evs (.elementOpen e :: rest) ⟨none, []⟩ s h]
  have hstep : step ext s (.elementOpen e) = .error .nestingTooDeep := by
    simp [step, hf, hlen, STACK_SIZE]
  rw [runFrom, runSeg, hstep]

theorem claim_C6_witness :
    xml_parse extTriv (List.replicate 11 (Event.elementOpen "a") ++
      Event.elementOpen "b" :: []) = .error .nestingTooDeep :=
  (claim_C6 extTriv (List.replicate 11 (Event.elementOpen "a"))
      ⟨some ⟨"a", .pyNone, .pyNone⟩, List.replicate 10 ⟨"a", .pyNone, .pyNone⟩⟩
      rfl).2 ⟨"a", .pyNone, .pyNone⟩ rfl rfl "b" []

/-- C8: within one element, a run of TEXT events keeps a single `#text`
slot and later events overwrite earlier ones — after any non-empty
sequence of TEXT events whose coercions succeed, the element's `#text`
entry is exactly the coercion of the last TEXT value alone, and the rest
of the frame (name, list slot, stack) is untouched. -/
theorem claim_C8 (ext : Ext) (vs : List String) :
    ∀ (f : Frame) (st : List Frame) (lastv : String) (w : Value),
    (∀ v ∈ vs, (postprocess_value ext f.name v).isSome = true) →
    vs.getLast? = some lastv →
    postprocess_value ext f.name lastv = some w →
    runSeg ext ⟨some f, st⟩ (vs.map .text) =
      .ok (.inl ⟨some ⟨f.name, .dict (dictSet f.dict.entries "#text" w), f.list⟩,
        st⟩) := by
  induction vs with
  | nil =>
    intro f st lastv w _ hl _
    simp at hl
  | cons v rest ih =>
    intro f st lastv w hall hl hw
    obtain ⟨wv, hwv⟩ := Option.isSome_iff_exists.mp (hall v (by simp))
    rw [List.map_cons, runSeg]
    have hstep : step ext ⟨some f, st⟩ (.text v) =
        .ok (.inl ⟨some ⟨f.name, .dict (dictSet f.dict.entries "#text" wv),
          f.list⟩, st⟩) := by
      simp [step, hwv]
    rw [hstep]
    cases rest with
    | nil =>
      have hlv : lastv = v := by simpa using hl.symm
      subst hlv
      rw [hwv] at hw
      cases hw
      simp [runSeg]
    | cons r2 rt =>
      have hl2 : (r2 :: rt).getLast? = some lastv := by
        simpa [List.getLast?_cons_cons] using hl
      have hrec := ih ⟨f.name, .dict (dictSet f.dict.entries "#text" wv), f.list⟩
        st lastv w (fun x hx => hall x (by simp [hx])) hl2 hw
      simpa [dictSet_dictSet] using hrec

theorem claim_C8_witness :
    runSeg extTriv ⟨some ⟨"root", .pyNone, .pyNone⟩, []⟩
      [Event.text "a", Event.text "b"] =
      .ok (.inl ⟨some ⟨"root", .dict [("#text", .str "b")], .pyNone⟩, []⟩) :=
  claim_C8 extTriv ["a", "b"] ⟨"root", .pyNone, .pyNone⟩ [] "b" (.str "b")
    (by decide) rfl rfl

/-- C1 counterexample: the unparser accepts the tree `⟨"id" ↦ "abc"⟩` and
emits `<id>abc</id>`, but parsing that document back coerces the text
under the `id` key with the integer scalarizer and yields
`⟨"id" ↦ 0⟩ ≠ ⟨"id" ↦ "abc"⟩`, so parse is not a left inverse of unparse
on all accepted trees. -/
theorem claim_C1_counterexample :
    xml_unparse envTriv (.map [("id", .str "abc")]) =
      .ok (some (.elem "id" [] [.xtext "abc"])) ∧
    xml_parse extTriv (nodeEvents (.elem "id" [] [.xtext "abc"])) =
      .ok (.map [("id", .int 0)]) ∧
    Value.map [("id", .int 0)] ≠ .map [("id", .str "abc")] := by
  refine ⟨?_, rfl, ?_⟩
  · simp [xml_unparse, unparse_element, unparse_scalar, to_string, addContent]
  · simp

/-- C1 (amended): on the `goodRoot` fragment — a one-entry root map with a
safe name whose value is built from coercion-stable scalars, attribute
prefixes, `#text` entries, child slots and items-mode tuple lists within
the stack budget — `xml_unparse` succeeds with a single document element
and `xml_parse` of that document's event stream returns exactly the
original tree: parse is a left inverse of unparse on this fragment. -/
theorem claim_C1 (env : UEnv) (ext : Ext) (T : Value)
    (h : goodRoot T = true) :
    ∃ doc : XNode, xml_unparse env T = .ok (some doc) ∧
      xml_parse ext (nodeEvents doc) = .ok T := by
  cases T with
  | map m =>
    cases m with
    | nil => simp [goodRoot] at h
    | cons p r =>
      cases r with
      | cons q r2 => simp [goodRoot] at h
      | nil =>
        obtain ⟨k, v⟩ := p
        simp only [goodRoot, Bool.and_eq_true] at h
        obtain ⟨hk, hv⟩ := h
        obtain ⟨attrs, cs, hunp, hht, hres⟩ :=
          good_master env ext (STACK_SIZE + 1) k v hv
        have hcs : heightList cs ≤ STACK_SIZE := by
          rw [heightN] at hht
          omega
        refine ⟨.elem k attrs cs, ?_, ?_⟩
        · have hx : xml_unparse env (Value.map [(k, v)]) = (do
              let ns ← unparse_element env k v true
              Except.ok ns.getLast?) := by rw [xml_unparse.eq_def]
          rw [hx, hunp true]
          rfl
        · rw [xml_parse_rootElem ext k attrs cs hcs, hres]
  | str s => simp [goodRoot] at h
  | int n => simp [goodRoot] at h
  | float q => simp [goodRoot] at h
  | bool b => simp [goodRoot] at h
  | null => simp [goodRoot] at h
  | ts t => simp [goodRoot] at h
  | cdata c => simp [goodRoot] at h
  | seq l => simp [goodRoot] at h
  | tup a b => simp [goodRoot] at h

theorem claim_C1_witness :
    goodRoot (.map [("osm", .str "hi")]) = true ∧
    ∃ doc : XNode,
      xml_unparse envTriv (.map [("osm", .str "hi")]) = .ok (some doc) ∧
      xml_parse extTriv (nodeEvents doc) = .ok (.map [("osm", .str "hi")]) := by
  have hg : goodRoot (Value.map [("osm", Value.str "hi")]) = true := by
    simp [goodRoot, goodElem, goodScalarForKey, goodName, goodTextStr,
      postLookup, value_postprocessor_map, isXmlWS]
  exact ⟨hg, claim_C1 envTriv extTriv (.map [("osm", .str "hi")]) hg⟩

end OsmXml
